import Mathlib

/-!
# Loan-application chaincode (`src/blockchain/loan.go`)

A shallow embedding of the chaincode's handlers and dispatcher.  The chaincode
talks to its host through `shim.ChaincodeStubInterface`; the host is embedded as
an explicit ledger state (`World`) together with the host's behaviour that the
chaincode cannot control (`Host`: the caller's certificate and which host calls
fail).  Every handler is a function from the world before the call to the world
after it and the Go result pair `([]byte, error)`.

Go strings are byte sequences, valid UTF-8 or not, and are embedded as lists of
bytes; a string literal of the source is the UTF-8 encoding of its text.

`UpdateLoanApplication` decodes and re-encodes the record with Go's
`encoding/json`.  That package is embedded too (`jsonMarshal`, `jsonUnmarshal`),
for the one Go type the chaincode uses it on, so that statements about stored
bytes are statements about concrete JSON text.
-/

namespace Loan

/-! ## Go strings -/

/-- A Go `byte`. -/
abbrev Byte := Fin 256

/-- Go byte sequences.  A Go `string` and a `[]byte` hold the same thing, any
sequence of bytes, and the conversions `[]byte(s)` and `string(b)` copy it
verbatim, so both are embedded as one type and the conversions as the identity. -/
abbrev Bytes := List Byte

/-- The conversion `byte(n)`, which keeps the low eight bits. -/
def byte (n : Nat) : Byte := ⟨n % 256, Nat.mod_lt n (by decide)⟩

/-- The byte of an ASCII character. -/
def ch (c : Char) : Byte := byte c.toNat

/-- The UTF-8 encoding of a code point (`utf8.AppendRune`): one to four bytes, and
the encoding of U+FFFD for a surrogate or a value past U+10FFFF. -/
def encodeRune (r : Nat) : Bytes :=
  if r < 128 then [byte r]
  else if r < 2048 then [byte (192 + r / 64), byte (128 + r % 64)]
  else if 1114111 < r ∨ (55296 ≤ r ∧ r ≤ 57343) then [239, 191, 189]
  else if r < 65536 then
    [byte (224 + r / 4096), byte (128 + r / 64 % 64), byte (128 + r % 64)]
  else
    [byte (240 + r / 262144), byte (128 + r / 4096 % 64), byte (128 + r / 64 % 64),
      byte (128 + r % 64)]

/-- The UTF-8 encoding of a sequence of characters. -/
def encodeChars : List Char → Bytes
  | [] => []
  | c :: cs => encodeRune c.toNat ++ encodeChars cs

/-- A string literal of the source: the UTF-8 encoding of its text. -/
def utf8 (s : String) : Bytes := encodeChars s.data

/-- A UTF-8 continuation byte. -/
def isCont (b : Byte) : Bool := 128 ≤ b.val && b.val ≤ 191

/-- The first code point of a byte sequence and the number of bytes it takes
(`utf8.DecodeRune`).  A byte that starts no valid encoding (a stray continuation
byte, a truncated or overlong sequence, an encoded surrogate, a value past
U+10FFFF) gives U+FFFD with width 1. -/
def decodeRune : Bytes → Nat × Nat
  | [] => (65533, 0)
  | b0 :: rest =>
    if b0.val < 128 then (b0.val, 1)
    else if 194 ≤ b0.val ∧ b0.val ≤ 223 then
      match rest with
      | b1 :: _ =>
        if isCont b1 then ((b0.val - 192) * 64 + (b1.val - 128), 2) else (65533, 1)
      | _ => (65533, 1)
    else if 224 ≤ b0.val ∧ b0.val ≤ 239 then
      match rest with
      | b1 :: b2 :: _ =>
        if (if b0.val = 224 then 160 else 128) ≤ b1.val
            ∧ b1.val ≤ (if b0.val = 237 then 159 else 191) ∧ isCont b2 then
          ((b0.val - 224) * 4096 + (b1.val - 128) * 64 + (b2.val - 128), 3)
        else (65533, 1)
      | _ => (65533, 1)
    else if 240 ≤ b0.val ∧ b0.val ≤ 244 then
      match rest with
      | b1 :: b2 :: b3 :: _ =>
        if (if b0.val = 240 then 144 else 128) ≤ b1.val
            ∧ b1.val ≤ (if b0.val = 244 then 143 else 191) ∧ isCont b2 ∧ isCont b3 then
          ((b0.val - 240) * 262144 + (b1.val - 128) * 4096 + (b2.val - 128) * 64
            + (b3.val - 128), 4)
        else (65533, 1)
      | _ => (65533, 1)
    else (65533, 1)

/-- The code points of a byte sequence, U+FFFD for every byte that starts no valid
encoding (the conversion `[]rune(s)`); each step consumes input, so `fuel` equal
to the length is enough. -/
def runesAux : Nat → Bytes → List Char
  | 0, _ => []
  | _ + 1, [] => []
  | fuel + 1, b :: bs =>
    Char.ofNat (decodeRune (b :: bs)).1
      :: runesAux fuel ((b :: bs).drop (decodeRune (b :: bs)).2)

/-- The code points of a byte sequence, U+FFFD for every invalid byte. -/
def runes (s : Bytes) : List Char := runesAux s.length s

/-- The byte sequence coerced to valid UTF-8: every byte that starts no valid
encoding is replaced by the encoding of U+FFFD.  This is what a string turns into
when `encoding/json` writes it and reads it back. -/
def coerceUTF8 (s : Bytes) : Bytes := encodeChars (runes s)

/-- Valid UTF-8 (`utf8.Valid`): the coercion replaces nothing. -/
def ValidUTF8 (s : Bytes) : Prop := coerceUTF8 s = s

instance (s : Bytes) : Decidable (ValidUTF8 s) := by
  unfold ValidUTF8
  infer_instance

/-! ## Host platform -/

/-- A Go `error` value that is not nil, by its message. -/
abbrev GoError := Bytes

/-- The Go result pair `([]byte, error)`: `.error e` is `(nil, e)`, `.ok none` is
`(nil, nil)` and `.ok (some b)` is `(b, nil)`. -/
abbrev Reply := Except GoError (Option Bytes)

/-- What the host keeps for the chaincode: the key-value ledger (an absent key is
`none`, which `GetState` hands back as a nil slice) and the events the host
accepted, oldest first. -/
structure World where
  ledger : Bytes → Option Bytes
  events : List (Bytes × Bytes)

/-- Modelled from the spec: the host side of `shim.ChaincodeStubInterface` (the
fabric shim is not part of the repository).  `ReadCertAttribute` is the caller's
credential read; the three fault fields say which `GetState`, `PutState` and
`SetEvent` calls the host refuses (section 4.1: `fetch(key) -> bytes | NotFound |
StoreError`, `store(key, value) -> ok | StoreError`). -/
structure Host where
  ReadCertAttribute : Bytes → Except GoError Bytes
  getFault : World → Bytes → Option GoError
  putFault : World → Bytes → Bytes → Option GoError
  eventFault : World → Bytes → Bytes → Option GoError

/-- The world in which `key` holds `value` and every other key is as in `w`. -/
def World.put (w : World) (key : Bytes) (value : Bytes) : World :=
  { w with ledger := fun k => if k = key then some value else w.ledger k }

/-- The world in which the host has accepted one more event. -/
def World.emit (w : World) (name : Bytes) (payload : Bytes) : World :=
  { w with events := w.events ++ [(name, payload)] }

/-- Modelled from the spec: `stub.GetState(key)`, a single-key fetch that passes
the stored bytes through (nil for an absent key) unless the host fails. -/
def GetState (h : Host) (w : World) (key : Bytes) : Except GoError (Option Bytes) :=
  match h.getFault w key with
  | some err => .error err
  | none => .ok (w.ledger key)

/-- Modelled from the spec: `stub.PutState(key, value)`, an atomic single-key
store: either the host refuses and nothing changes, or `key` now holds `value`. -/
def PutState (h : Host) (w : World) (key : Bytes) (value : Bytes) : World × Option GoError :=
  match h.putFault w key value with
  | some err => (w, some err)
  | none => (w.put key value, none)

/-- Modelled from the spec: `stub.SetEvent(name, payload)`, which asks the host to
broadcast `payload` under `name`. -/
def SetEvent (h : Host) (w : World) (name : Bytes) (payload : Bytes) : World × Option GoError :=
  match h.eventFault w name payload with
  | some err => (w, some err)
  | none => (w.emit name payload, none)

/-- The bytes of a slice a host call returned: a nil slice has none. -/
def sliceBytes (b : Option Bytes) : Bytes := b.getD []

/-! ## Record model (loan.go 19-50) -/

/-- Go's `int` on the 64-bit platforms the chaincode runs on. -/
abbrev GoInt := { n : Int // -9223372036854775808 ≤ n ∧ n < 9223372036854775808 }

/-- The zero value of `int`. -/
def GoInt.zero : GoInt := ⟨0, by omega⟩

/-- `PersonalInfo` (loan.go 19-25). -/
structure PersonalInfo where
  Firstname : Bytes
  Lastname : Bytes
  DOB : Bytes
  Email : Bytes
  Mobile : Bytes
  deriving DecidableEq

/-- `FinancialInfo` (loan.go 27-32). -/
structure FinancialInfo where
  MonthlySalary : GoInt
  MonthlyRent : GoInt
  OtherExpenditure : GoInt
  MonthlyLoanPayment : GoInt
  deriving DecidableEq

/-- `LoanApplication` (loan.go 34-50). -/
structure LoanApplication where
  ID : Bytes
  PropertyId : Bytes
  LandId : Bytes
  PermitId : Bytes
  BuyerId : Bytes
  AppraisalApplicationId : Bytes
  SalesContractId : Bytes
  PersonalInfo : PersonalInfo
  FinancialInfo : FinancialInfo
  Status : Bytes
  RequestedAmount : GoInt
  FairMarketValue : GoInt
  ApprovedAmount : GoInt
  ReviewerId : Bytes
  LastModifiedDate : Bytes
  deriving DecidableEq

/-- The zero value of `PersonalInfo`. -/
def PersonalInfo.zero : PersonalInfo := ⟨[], [], [], [], []⟩

/-- The zero value of `FinancialInfo`. -/
def FinancialInfo.zero : FinancialInfo := ⟨GoInt.zero, GoInt.zero, GoInt.zero, GoInt.zero⟩

/-- The zero value of `LoanApplication`, what `var loanApplication LoanApplication`
declares. -/
def LoanApplication.zero : LoanApplication :=
  ⟨[], [], [], [], [], [], [], PersonalInfo.zero, FinancialInfo.zero, [], GoInt.zero, GoInt.zero,
    GoInt.zero, [], []⟩

/-! ## JSON codec

Modelled from the spec: section 3 persists the record as one JSON object per key
and section 4.4 decodes and re-encodes it.  The codec is Go's `encoding/json`,
which is not part of the repository; it is embedded here after the package's
documented behaviour, for the struct types above: `json.Marshal` writes the
fields in declaration order under their tag names with Go's string escaping
(which coerces a string to valid UTF-8), and `json.Unmarshal` first checks that
the whole input is one JSON value (touching nothing when it is not), then stores
member by member, matching keys to tag names case-insensitively, skipping unknown
keys, leaving a field unchanged on `null`, and recording a type error (while
going on) for a value that does not fit its field.  The parser recurses on a fuel
counter; `parse_fuel` below shows the fuel it is given always suffices.  (The
nesting limit of later Go releases is not part of the model.) -/

/-! ### Encoding -/

/-- One digit of `encoding/json`'s `hex = "0123456789abcdef"`. -/
def hexDigit (n : Nat) : Byte :=
  if n < 10 then byte (48 + n) else byte (87 + n)

/-- How `encoding/json` writes one ASCII byte of a string, with HTML escaping on
(the default of `json.Marshal`): the quote and the backslash behind a backslash,
newline, carriage return and tab as `\n`, `\r`, `\t`, every other control
character and `<`, `>`, `&` as `\u00XX`, and everything else as it is. -/
def escapeByte (b : Byte) : Bytes :=
  if b = ch '"' then [ch '\\', ch '"']
  else if b = ch '\\' then [ch '\\', ch '\\']
  else if b = ch '\n' then [ch '\\', ch 'n']
  else if b = ch '\r' then [ch '\\', ch 'r']
  else if b = ch '\t' then [ch '\\', ch 't']
  else if b.val < 32 ∨ b = ch '<' ∨ b = ch '>' ∨ b = ch '&' then
    [ch '\\', ch 'u', ch '0', ch '0', hexDigit (b.val / 16), hexDigit (b.val % 16)]
  else [b]

/-- The escaped body of a JSON string.  An ASCII byte is written by `escapeByte`;
a byte that starts no valid UTF-8 encoding is written as the escape `\ufffd`; the
line and paragraph separators U+2028 and U+2029 are written as the escapes
`\u2028` and `\u2029`; any other encoded code point is copied.  Each step consumes
input, so `fuel` equal to the length is enough. -/
def escapeAux : Nat → Bytes → Bytes
  | 0, _ => []
  | _ + 1, [] => []
  | fuel + 1, b :: bs =>
    if b.val < 128 then escapeByte b ++ escapeAux fuel bs
    else if (decodeRune (b :: bs)).1 = 65533 ∧ (decodeRune (b :: bs)).2 = 1 then
      [ch '\\', ch 'u', ch 'f', ch 'f', ch 'f', ch 'd'] ++ escapeAux fuel bs
    else if (decodeRune (b :: bs)).1 = 8232 then
      [ch '\\', ch 'u', ch '2', ch '0', ch '2', ch '8']
        ++ escapeAux fuel ((b :: bs).drop (decodeRune (b :: bs)).2)
    else if (decodeRune (b :: bs)).1 = 8233 then
      [ch '\\', ch 'u', ch '2', ch '0', ch '2', ch '9']
        ++ escapeAux fuel ((b :: bs).drop (decodeRune (b :: bs)).2)
    else
      (b :: bs).take (decodeRune (b :: bs)).2
        ++ escapeAux fuel ((b :: bs).drop (decodeRune (b :: bs)).2)

/-- The escaped body of a JSON string. -/
def escape (s : Bytes) : Bytes := escapeAux s.length s

/-- A Go string as a JSON string literal. -/
def quote (s : Bytes) : Bytes := ch '"' :: (escape s ++ [ch '"'])

/-- The byte of a decimal digit. -/
def digitChar (d : Nat) : Byte := byte (48 + d)

/-- The decimal digits of `n` in front of `acc`, written from the right as
`strconv` does; `fuel` bounds the number of digits. -/
def natDigitsAux : Nat → Nat → Bytes → Bytes
  | 0, _, acc => acc
  | fuel + 1, n, acc =>
    if n < 10 then digitChar n :: acc
    else natDigitsAux fuel (n / 10) (digitChar (n % 10) :: acc)

/-- The decimal digits of a natural number. -/
def natDigits (n : Nat) : Bytes := natDigitsAux (n + 1) n []

/-- `strconv.FormatInt(n, 10)`, how an `int` field is written. -/
def formatInt (n : Int) : Bytes :=
  if n < 0 then ch '-' :: natDigits n.natAbs else natDigits n.natAbs

/-- The members of a struct's JSON object: every field but the first is preceded
by a comma. -/
def encodeFields : Bool → List (Bytes × Bytes) → Bytes
  | _, [] => []
  | first, (name, value) :: rest =>
    (if first then [] else [ch ',']) ++ quote name ++ ch ':' :: value
      ++ encodeFields false rest

/-- A struct's JSON object, from its tag names and encoded field values in
declaration order. -/
def encodeStruct (fields : List (Bytes × Bytes)) : Bytes :=
  ch '{' :: (encodeFields true fields ++ [ch '}'])

/-- `json.Marshal` of a `PersonalInfo`. -/
def encodePersonalInfo (p : PersonalInfo) : Bytes :=
  encodeStruct [
    (utf8 "firstname", quote p.Firstname),
    (utf8 "lastname", quote p.Lastname),
    (utf8 "DOB", quote p.DOB),
    (utf8 "email", quote p.Email),
    (utf8 "mobile", quote p.Mobile)]

/-- `json.Marshal` of a `FinancialInfo`. -/
def encodeFinancialInfo (f : FinancialInfo) : Bytes :=
  encodeStruct [
    (utf8 "monthlySalary", formatInt f.MonthlySalary.val),
    (utf8 "monthlyRent", formatInt f.MonthlyRent.val),
    (utf8 "otherExpenditure", formatInt f.OtherExpenditure.val),
    (utf8 "monthlyLoanPayment", formatInt f.MonthlyLoanPayment.val)]

/-- The text `json.Marshal` writes for a `LoanApplication`. -/
def encodeLoanApplication (la : LoanApplication) : Bytes :=
  encodeStruct [
    (utf8 "id", quote la.ID),
    (utf8 "propertyId", quote la.PropertyId),
    (utf8 "landId", quote la.LandId),
    (utf8 "permitId", quote la.PermitId),
    (utf8 "buyerId", quote la.BuyerId),
    (utf8 "appraiserApplicationId", quote la.AppraisalApplicationId),
    (utf8 "salesContractId", quote la.SalesContractId),
    (utf8 "personalInfo", encodePersonalInfo la.PersonalInfo),
    (utf8 "financialInfo", encodeFinancialInfo la.FinancialInfo),
    (utf8 "status", quote la.Status),
    (utf8 "requestedAmount", formatInt la.RequestedAmount.val),
    (utf8 "fairMarketValue", formatInt la.FairMarketValue.val),
    (utf8 "approvedAmount", formatInt la.ApprovedAmount.val),
    (utf8 "reviewerId", quote la.ReviewerId),
    (utf8 "lastModifiedDate", quote la.LastModifiedDate)]

/-- Modelled from the spec: `json.Marshal(&loanApplication)`, "re-encode the
full structure" (section 4.4).  For this type, strings and integers only, Go's
encoder has no failing case. -/
def jsonMarshal (la : LoanApplication) : Except GoError Bytes :=
  .ok (encodeLoanApplication la)

/-! ### Reading JSON text -/

/-- A JSON value as read from text.  A string is held as the characters it
denotes; a number keeps its literal, which is converted only when it is stored
into a field. -/
inductive JVal where
  | null
  | bool (b : Bool)
  | num (lit : Bytes)
  | str (s : List Char)
  | arr (items : List JVal)
  | obj (members : List (List Char × JVal))

/-- Which kind of error `json.Unmarshal` returned: `malformed` for input that is
not one JSON value (Go's `*json.SyntaxError`), `typeMismatch` for a value that does
not fit its field (Go's `*json.UnmarshalTypeError`).  The chaincode never reads
the error, so its text is not modelled. -/
inductive JsonError where
  | malformed
  | typeMismatch
  deriving DecidableEq

/-- JSON white space. -/
def isSpace (b : Byte) : Bool := b = ch ' ' || b = ch '\t' || b = ch '\r' || b = ch '\n'

/-- Drops leading white space. -/
def skipSpace : Bytes → Bytes
  | [] => []
  | c :: cs => if isSpace c then skipSpace cs else c :: cs

/-- A decimal digit. -/
def isDigit (b : Byte) : Bool := 48 ≤ b.val && b.val ≤ 57

/-- The value of a hexadecimal digit of either case. -/
def hexVal (b : Byte) : Option Nat :=
  if 48 ≤ b.val ∧ b.val ≤ 57 then some (b.val - 48)
  else if 97 ≤ b.val ∧ b.val ≤ 102 then some (b.val - 87)
  else if 65 ≤ b.val ∧ b.val ≤ 70 then some (b.val - 55)
  else none

/-- The code unit of an escape `\uXXXX`, from the four bytes after `\u`
(`getu4`). -/
def getu4 (a b c d : Byte) : Option Nat :=
  match hexVal a, hexVal b, hexVal c, hexVal d with
  | some x, some y, some z, some w => some (((x * 16 + y) * 16 + z) * 16 + w)
  | _, _, _, _ => none

/-- A UTF-16 surrogate code unit. -/
def isSurrogate (r : Nat) : Bool := 55296 ≤ r && r < 57344

/-- The code point of a surrogate pair (`utf16.DecodeRune`), none when the two
units are not a high and a low surrogate in that order. -/
def decodeSurrogates (r1 r2 : Nat) : Option Nat :=
  if 55296 ≤ r1 ∧ r1 < 56320 ∧ 56320 ≤ r2 ∧ r2 < 57344 then
    some ((r1 - 55296) * 1024 + (r2 - 56320) + 65536)
  else none

/-- U+FFFD, which stands in for an escape that names no character. -/
def replacementChar : Char := Char.ofNat 65533

/-- The character of a one-letter escape. -/
def simpleEscape (e : Byte) : Option Char :=
  if e = ch '"' then some '"'
  else if e = ch '\\' then some '\\'
  else if e = ch '/' then some '/'
  else if e = ch 'b' then some (Char.ofNat 8)
  else if e = ch 'f' then some (Char.ofNat 12)
  else if e = ch 'n' then some '\n'
  else if e = ch 'r' then some '\r'
  else if e = ch 't' then some '\t'
  else none

/-- The code point of the surrogate pair whose high half is `r1` and whose low
half is written as `\uXXXX` at the head of the input, with the input after it. -/
def lowSurrogate (r1 : Nat) (cs : Bytes) : Option (Nat × Bytes) :=
  match cs with
  | b :: u :: a2 :: b2 :: c2 :: d2 :: rest =>
    if b = ch '\\' ∧ u = ch 'u' then
      match getu4 a2 b2 c2 d2 with
      | some r2 =>
        match decodeSurrogates r1 r2 with
        | some r => some (r, rest)
        | none => none
      | none => none
    else none
  | _ => none

/-- Reads a string literal from just after its opening quote: the characters it
denotes and the input after the closing quote.  A raw control character, an
unknown escape or a missing closing quote is a syntax error (`none`); a byte that
starts no valid UTF-8 encoding reads as U+FFFD.  Every step consumes input, so
fuel above the input's length is never used up. -/
def unquoteBody : Nat → Bytes → Option (List Char × Bytes)
  | 0, _ => none
  | _ + 1, [] => none
  | fuel + 1, c :: cs =>
    if c = ch '"' then some ([], cs)
    else if c = ch '\\' then
      match cs with
      | [] => none
      | e :: cs1 =>
        if e = ch 'u' then
          match cs1 with
          | a :: b :: c1 :: d :: cs2 =>
            match getu4 a b c1 d with
            | none => none
            | some r1 =>
              if isSurrogate r1 then
                match lowSurrogate r1 cs2 with
                | some (r, cs3) =>
                  (unquoteBody fuel cs3).map fun p => (Char.ofNat r :: p.1, p.2)
                | none =>
                  (unquoteBody fuel cs2).map fun p => (replacementChar :: p.1, p.2)
              else
                (unquoteBody fuel cs2).map fun p => (Char.ofNat r1 :: p.1, p.2)
          | _ => none
        else
          match simpleEscape e with
          | some x => (unquoteBody fuel cs1).map fun p => (x :: p.1, p.2)
          | none => none
    else if c.val < 32 then none
    else if c.val < 128 then
      (unquoteBody fuel cs).map fun p => (Char.ofNat c.val :: p.1, p.2)
    else
      (unquoteBody fuel ((c :: cs).drop (decodeRune (c :: cs)).2)).map fun p =>
        (Char.ofNat (decodeRune (c :: cs)).1 :: p.1, p.2)

/-- Splits off the leading digits. -/
def spanDigits : Bytes → Bytes × Bytes
  | [] => ([], [])
  | c :: cs => if isDigit c then ((spanDigits cs).1.cons c, (spanDigits cs).2) else ([], c :: cs)

/-- The optional exponent of a number literal. -/
def scanExponent (lit cs : Bytes) : Option (Bytes × Bytes) :=
  match cs with
  | e :: cs1 =>
    if e = ch 'e' ∨ e = ch 'E' then
      let signed : Bytes × Bytes :=
        match cs1 with
        | s :: cs2 => if s = ch '+' ∨ s = ch '-' then ([s], cs2) else ([], cs1)
        | [] => ([], [])
      match spanDigits signed.2 with
      | ([], _) => none
      | (ds, rest) => some (lit ++ e :: signed.1 ++ ds, rest)
    else some (lit, cs)
  | [] => some (lit, [])

/-- The optional fraction of a number literal, then its exponent. -/
def scanFraction (lit cs : Bytes) : Option (Bytes × Bytes) :=
  match cs with
  | p :: cs1 =>
    if p = ch '.' then
      match spanDigits cs1 with
      | ([], _) => none
      | (ds, rest) => scanExponent (lit ++ p :: ds) rest
    else scanExponent lit cs
  | [] => some (lit, [])

/-- The integer part of a number literal (a lone zero, or digits that do not start
with zero), then the rest of the literal. -/
def scanInteger (sign cs : Bytes) : Option (Bytes × Bytes) :=
  match cs with
  | c :: cs1 =>
    if c = ch '0' then scanFraction (sign ++ [c]) cs1
    else if isDigit c then
      scanFraction (sign ++ c :: (spanDigits cs1).1) (spanDigits cs1).2
    else none
  | [] => none

/-- Reads a JSON number literal: the literal and the input after it. -/
def scanNumber (cs : Bytes) : Option (Bytes × Bytes) :=
  match cs with
  | c :: cs1 => if c = ch '-' then scanInteger [c] cs1 else scanInteger [] cs
  | [] => none

/-- The input after the given prefix, when it starts with it. -/
def dropPrefix : Bytes → Bytes → Option Bytes
  | [], cs => some cs
  | _ :: _, [] => none
  | p :: ps, c :: cs => if p = c then dropPrefix ps cs else none

mutual

/-- Reads one JSON value at the head of the input (no leading white space): the
value and the input after it, or `none` on a syntax error.  Every nested call
comes after at least one consumed byte, so fuel above the input's length is never
used up. -/
def parseValue : Nat → Bytes → Option (JVal × Bytes)
  | 0, _ => none
  | _ + 1, [] => none
  | fuel + 1, c :: cs =>
    if c = ch '"' then
      (unquoteBody (cs.length + 1) cs).map fun p => (JVal.str p.1, p.2)
    else if c = ch '-' ∨ isDigit c then
      (scanNumber (c :: cs)).map fun p => (JVal.num p.1, p.2)
    else if c = ch '{' then
      match skipSpace cs with
      | [] => none
      | d :: ds =>
        if d = ch '}' then some (JVal.obj [], ds)
        else
          match parseMember fuel (d :: ds) with
          | none => none
          | some (m, cs1) => (parseMembers fuel cs1).map fun p => (JVal.obj (m :: p.1), p.2)
    else if c = ch '[' then
      match skipSpace cs with
      | [] => none
      | d :: ds =>
        if d = ch ']' then some (JVal.arr [], ds)
        else
          match parseValue fuel (d :: ds) with
          | none => none
          | some (v, cs1) => (parseElements fuel cs1).map fun p => (JVal.arr (v :: p.1), p.2)
    else if c = ch 't' then (dropPrefix (utf8 "rue") cs).map fun r => (JVal.bool true, r)
    else if c = ch 'f' then (dropPrefix (utf8 "alse") cs).map fun r => (JVal.bool false, r)
    else if c = ch 'n' then (dropPrefix (utf8 "ull") cs).map fun r => (JVal.null, r)
    else none

/-- Reads one object member, `"key" : value`. -/
def parseMember : Nat → Bytes → Option ((List Char × JVal) × Bytes)
  | 0, _ => none
  | _ + 1, [] => none
  | fuel + 1, c :: cs =>
    if c = ch '"' then
      match unquoteBody (cs.length + 1) cs with
      | none => none
      | some (key, cs1) =>
        match skipSpace cs1 with
        | [] => none
        | colon :: cs2 =>
          if colon = ch ':' then
            (parseValue fuel (skipSpace cs2)).map fun p => ((key, p.1), p.2)
          else none
    else none

/-- Reads the rest of an object after a member: further members, each after a
comma, up to the closing brace. -/
def parseMembers : Nat → Bytes → Option (List (List Char × JVal) × Bytes)
  | 0, _ => none
  | fuel + 1, cs =>
    match skipSpace cs with
    | [] => none
    | sep :: cs1 =>
      if sep = ch ',' then
        match parseMember fuel (skipSpace cs1) with
        | none => none
        | some (m, cs2) => (parseMembers fuel cs2).map fun p => (m :: p.1, p.2)
      else if sep = ch '}' then some ([], cs1)
      else none

/-- Reads the rest of an array after an element: further elements, each after a
comma, up to the closing bracket. -/
def parseElements : Nat → Bytes → Option (List JVal × Bytes)
  | 0, _ => none
  | fuel + 1, cs =>
    match skipSpace cs with
    | [] => none
    | sep :: cs1 =>
      if sep = ch ',' then
        match parseValue fuel (skipSpace cs1) with
        | none => none
        | some (v, cs2) => (parseElements fuel cs2).map fun p => (v :: p.1, p.2)
      else if sep = ch ']' then some ([], cs1)
      else none

end

/-- The validity check `json.Unmarshal` runs before it stores anything: the input
is one JSON value with nothing but white space around it. -/
def parseJSON (cs : Bytes) : Option JVal :=
  match parseValue (cs.length + 1) (skipSpace cs) with
  | none => none
  | some (v, rest) => if skipSpace rest = [] then some v else none

/-! ### Storing parsed values into the record -/

/-- Case folding of key characters: ASCII letters to upper case, and the two
non-ASCII characters that fold to an ASCII letter (long s to S, the kelvin sign
to K). -/
def foldChar (c : Char) : Char :=
  if 97 ≤ c.toNat ∧ c.toNat ≤ 122 then Char.ofNat (c.toNat - 32)
  else if c.toNat = 383 then 'S'
  else if c.toNat = 8490 then 'K'
  else c

/-- Case-insensitive match of an object key with a tag name. -/
def equalFold (key name : List Char) : Bool := key.map foldChar == name.map foldChar

/-- The field a key is stored into: the position of the tag name it matches.  The
tag names of each struct here differ even when case is ignored, so a key matches
at most one of them and Go's preference for an exact match changes nothing. -/
def fieldIndex (names : List String) (key : List Char) : Option Nat :=
  names.findIdx? fun name => equalFold key name.data

/-- The value of a decimal digit. -/
def digitVal (b : Byte) : Option Nat :=
  if isDigit b then some (b.val - 48) else none

/-- The number written by the digits, continuing from `acc`. -/
def parseNatAux : Bytes → Nat → Option Nat
  | [], acc => some acc
  | c :: cs, acc =>
    match digitVal c with
    | some d => parseNatAux cs (10 * acc + d)
    | none => none

/-- The number written by a non-empty run of decimal digits. -/
def parseNat (ds : Bytes) : Option Nat :=
  match ds with
  | [] => none
  | _ :: _ => parseNatAux ds 0

/-- `strconv.ParseInt(lit, 10, 64)` before its range check: an optional sign and
decimal digits. -/
def parseInt (lit : Bytes) : Option Int :=
  match lit with
  | [] => none
  | c :: cs =>
    if c = ch '-' then (parseNat cs).map fun k => -Int.ofNat k
    else if c = ch '+' then (parseNat cs).map Int.ofNat
    else (parseNat (c :: cs)).map Int.ofNat

/-- Stores a JSON value into an `int` field: `null` changes nothing, a number
that is a decimal integer in range is stored, everything else is a type error
that leaves the field as it was. -/
def storeInt (v : JVal) (old : GoInt) : GoInt × Option JsonError :=
  match v with
  | .null => (old, none)
  | .num lit =>
    match parseInt lit with
    | some n =>
      if h : -9223372036854775808 ≤ n ∧ n < 9223372036854775808 then (⟨n, h⟩, none)
      else (old, some .typeMismatch)
    | none => (old, some .typeMismatch)
  | _ => (old, some .typeMismatch)

/-- Stores a JSON value into a `string` field: `null` changes nothing, a string
is stored as the UTF-8 encoding of its characters, everything else is a type
error that leaves the field as it was. -/
def storeString (v : JVal) (old : Bytes) : Bytes × Option JsonError :=
  match v with
  | .null => (old, none)
  | .str s => (encodeChars s, none)
  | _ => (old, some .typeMismatch)

/-- The error `json.Unmarshal` reports is the first one it recorded. -/
def firstError (a b : Option JsonError) : Option JsonError :=
  match a with
  | some e => some e
  | none => b

/-- The JSON tag names of `PersonalInfo`, in declaration order. -/
def personalInfoNames : List String := ["firstname", "lastname", "DOB", "email", "mobile"]

/-- Stores one object member into a `PersonalInfo`. -/
def storePersonalInfoField (p : PersonalInfo) (key : List Char) (v : JVal) :
    PersonalInfo × Option JsonError :=
  match fieldIndex personalInfoNames key with
  | some 0 => ({ p with Firstname := (storeString v p.Firstname).1 }, (storeString v p.Firstname).2)
  | some 1 => ({ p with Lastname := (storeString v p.Lastname).1 }, (storeString v p.Lastname).2)
  | some 2 => ({ p with DOB := (storeString v p.DOB).1 }, (storeString v p.DOB).2)
  | some 3 => ({ p with Email := (storeString v p.Email).1 }, (storeString v p.Email).2)
  | some 4 => ({ p with Mobile := (storeString v p.Mobile).1 }, (storeString v p.Mobile).2)
  | _ => (p, none)

/-- Stores the members of an object into a `PersonalInfo`, in the order written. -/
def storePersonalInfoMembers :
    List (List Char × JVal) → PersonalInfo × Option JsonError → PersonalInfo × Option JsonError
  | [], acc => acc
  | (key, v) :: rest, acc =>
    storePersonalInfoMembers rest
      ((storePersonalInfoField acc.1 key v).1,
        firstError acc.2 (storePersonalInfoField acc.1 key v).2)

/-- Stores a JSON value into a `PersonalInfo` field. -/
def storePersonalInfo (v : JVal) (old : PersonalInfo) : PersonalInfo × Option JsonError :=
  match v with
  | .null => (old, none)
  | .obj members => storePersonalInfoMembers members (old, none)
  | _ => (old, some .typeMismatch)

/-- The JSON tag names of `FinancialInfo`, in declaration order. -/
def financialInfoNames : List String :=
  ["monthlySalary", "monthlyRent", "otherExpenditure", "monthlyLoanPayment"]

/-- Stores one object member into a `FinancialInfo`. -/
def storeFinancialInfoField (f : FinancialInfo) (key : List Char) (v : JVal) :
    FinancialInfo × Option JsonError :=
  match fieldIndex financialInfoNames key with
  | some 0 =>
    ({ f with MonthlySalary := (storeInt v f.MonthlySalary).1 }, (storeInt v f.MonthlySalary).2)
  | some 1 =>
    ({ f with MonthlyRent := (storeInt v f.MonthlyRent).1 }, (storeInt v f.MonthlyRent).2)
  | some 2 =>
    ({ f with OtherExpenditure := (storeInt v f.OtherExpenditure).1 },
      (storeInt v f.OtherExpenditure).2)
  | some 3 =>
    ({ f with MonthlyLoanPayment := (storeInt v f.MonthlyLoanPayment).1 },
      (storeInt v f.MonthlyLoanPayment).2)
  | _ => (f, none)

/-- Stores the members of an object into a `FinancialInfo`, in the order
written. -/
def storeFinancialInfoMembers :
    List (List Char × JVal) → FinancialInfo × Option JsonError → FinancialInfo × Option JsonError
  | [], acc => acc
  | (key, v) :: rest, acc =>
    storeFinancialInfoMembers rest
      ((storeFinancialInfoField acc.1 key v).1,
        firstError acc.2 (storeFinancialInfoField acc.1 key v).2)

/-- Stores a JSON value into a `FinancialInfo` field. -/
def storeFinancialInfo (v : JVal) (old : FinancialInfo) : FinancialInfo × Option JsonError :=
  match v with
  | .null => (old, none)
  | .obj members => storeFinancialInfoMembers members (old, none)
  | _ => (old, some .typeMismatch)

/-- The JSON tag names of `LoanApplication`, in declaration order. -/
def loanApplicationNames : List String :=
  ["id", "propertyId", "landId", "permitId", "buyerId", "appraiserApplicationId",
    "salesContractId", "personalInfo", "financialInfo", "status", "requestedAmount",
    "fairMarketValue", "approvedAmount", "reviewerId", "lastModifiedDate"]

/-- Stores one object member into a `LoanApplication`. -/
def storeLoanApplicationField (la : LoanApplication) (key : List Char) (v : JVal) :
    LoanApplication × Option JsonError :=
  match fieldIndex loanApplicationNames key with
  | some 0 => ({ la with ID := (storeString v la.ID).1 }, (storeString v la.ID).2)
  | some 1 =>
    ({ la with PropertyId := (storeString v la.PropertyId).1 }, (storeString v la.PropertyId).2)
  | some 2 => ({ la with LandId := (storeString v la.LandId).1 }, (storeString v la.LandId).2)
  | some 3 =>
    ({ la with PermitId := (storeString v la.PermitId).1 }, (storeString v la.PermitId).2)
  | some 4 => ({ la with BuyerId := (storeString v la.BuyerId).1 }, (storeString v la.BuyerId).2)
  | some 5 =>
    ({ la with AppraisalApplicationId := (storeString v la.AppraisalApplicationId).1 },
      (storeString v la.AppraisalApplicationId).2)
  | some 6 =>
    ({ la with SalesContractId := (storeString v la.SalesContractId).1 },
      (storeString v la.SalesContractId).2)
  | some 7 =>
    ({ la with PersonalInfo := (storePersonalInfo v la.PersonalInfo).1 },
      (storePersonalInfo v la.PersonalInfo).2)
  | some 8 =>
    ({ la with FinancialInfo := (storeFinancialInfo v la.FinancialInfo).1 },
      (storeFinancialInfo v la.FinancialInfo).2)
  | some 9 => ({ la with Status := (storeString v la.Status).1 }, (storeString v la.Status).2)
  | some 10 =>
    ({ la with RequestedAmount := (storeInt v la.RequestedAmount).1 },
      (storeInt v la.RequestedAmount).2)
  | some 11 =>
    ({ la with FairMarketValue := (storeInt v la.FairMarketValue).1 },
      (storeInt v la.FairMarketValue).2)
  | some 12 =>
    ({ la with ApprovedAmount := (storeInt v la.ApprovedAmount).1 },
      (storeInt v la.ApprovedAmount).2)
  | some 13 =>
    ({ la with ReviewerId := (storeString v la.ReviewerId).1 }, (storeString v la.ReviewerId).2)
  | some 14 =>
    ({ la with LastModifiedDate := (storeString v la.LastModifiedDate).1 },
      (storeString v la.LastModifiedDate).2)
  | _ => (la, none)

/-- Stores the members of an object into a `LoanApplication`, in the order
written (a repeated key is stored again). -/
def storeLoanApplicationMembers :
    List (List Char × JVal) → LoanApplication × Option JsonError
      → LoanApplication × Option JsonError
  | [], acc => acc
  | (key, v) :: rest, acc =>
    storeLoanApplicationMembers rest
      ((storeLoanApplicationField acc.1 key v).1,
        firstError acc.2 (storeLoanApplicationField acc.1 key v).2)

/-- Stores a JSON value into a `LoanApplication`. -/
def storeLoanApplication (v : JVal) (old : LoanApplication) :
    LoanApplication × Option JsonError :=
  match v with
  | .null => (old, none)
  | .obj members => storeLoanApplicationMembers members (old, none)
  | _ => (old, some .typeMismatch)

/-- Modelled from the spec: `json.Unmarshal(data, &la)`, "decode into the Record
Model structure" (section 4.4): the record `la` points to after the call and the
error returned.  Input that is not JSON leaves the record untouched. -/
def jsonUnmarshal (data : Bytes) (la : LoanApplication) : LoanApplication × Option JsonError :=
  match parseJSON data with
  | none => (la, some .malformed)
  | some v => storeLoanApplication v la

/-- `PersonalInfo` with every string coerced to valid UTF-8. -/
def PersonalInfo.coerceUTF8 (p : PersonalInfo) : PersonalInfo :=
  { Firstname := Loan.coerceUTF8 p.Firstname, Lastname := Loan.coerceUTF8 p.Lastname,
    DOB := Loan.coerceUTF8 p.DOB, Email := Loan.coerceUTF8 p.Email,
    Mobile := Loan.coerceUTF8 p.Mobile }

/-- `LoanApplication` with every string coerced to valid UTF-8; the integers are
kept. -/
def LoanApplication.coerceUTF8 (la : LoanApplication) : LoanApplication :=
  { ID := Loan.coerceUTF8 la.ID, PropertyId := Loan.coerceUTF8 la.PropertyId,
    LandId := Loan.coerceUTF8 la.LandId, PermitId := Loan.coerceUTF8 la.PermitId,
    BuyerId := Loan.coerceUTF8 la.BuyerId,
    AppraisalApplicationId := Loan.coerceUTF8 la.AppraisalApplicationId,
    SalesContractId := Loan.coerceUTF8 la.SalesContractId,
    PersonalInfo := la.PersonalInfo.coerceUTF8,
    FinancialInfo := la.FinancialInfo,
    Status := Loan.coerceUTF8 la.Status,
    RequestedAmount := la.RequestedAmount,
    FairMarketValue := la.FairMarketValue,
    ApprovedAmount := la.ApprovedAmount,
    ReviewerId := Loan.coerceUTF8 la.ReviewerId,
    LastModifiedDate := Loan.coerceUTF8 la.LastModifiedDate }

/-- Every string field of the `PersonalInfo` is valid UTF-8. -/
def PersonalInfo.ValidUTF8 (p : PersonalInfo) : Prop :=
  Loan.ValidUTF8 p.Firstname ∧ Loan.ValidUTF8 p.Lastname ∧ Loan.ValidUTF8 p.DOB
    ∧ Loan.ValidUTF8 p.Email ∧ Loan.ValidUTF8 p.Mobile

/-- Every string field of the record, `Status` included, is valid UTF-8. -/
def LoanApplication.ValidUTF8 (la : LoanApplication) : Prop :=
  Loan.ValidUTF8 la.ID ∧ Loan.ValidUTF8 la.PropertyId ∧ Loan.ValidUTF8 la.LandId
    ∧ Loan.ValidUTF8 la.PermitId ∧ Loan.ValidUTF8 la.BuyerId
    ∧ Loan.ValidUTF8 la.AppraisalApplicationId ∧ Loan.ValidUTF8 la.SalesContractId
    ∧ la.PersonalInfo.ValidUTF8 ∧ Loan.ValidUTF8 la.Status ∧ Loan.ValidUTF8 la.ReviewerId
    ∧ Loan.ValidUTF8 la.LastModifiedDate


instance (p : PersonalInfo) : Decidable p.ValidUTF8 := by
  unfold PersonalInfo.ValidUTF8
  infer_instance

instance (la : LoanApplication) : Decidable la.ValidUTF8 := by
  unfold LoanApplication.ValidUTF8
  infer_instance

/-! ## Handlers and dispatcher -/

/-- `GetLoanApplication` (loan.go 54-70). -/
def GetLoanApplication (h : Host) (w : World) (args : List Bytes) : World × Reply :=
  if args.length < 1 then
    (w, .error (utf8 "Missing loan application ID"))
  else
    let loanApplicationId := args.getD 0 []
    match GetState h w loanApplicationId with
    | .error err => (w, .error err)
    | .ok bytes => (w, .ok bytes)

/-- `CreateLoanApplication` (loan.go 76-104). -/
def CreateLoanApplication (h : Host) (w : World) (args : List Bytes) : World × Reply :=
  if args.length < 2 then
    (w, .error (utf8 "Expected atleast two arguments for loan application creation"))
  else
    let loanApplicationId := args.getD 0 []
    let loanApplicationInput := args.getD 1 []
    match PutState h w loanApplicationId loanApplicationInput with
    | (w1, some err) => (w1, .error err)
    | (w1, none) =>
      let customEvent :=
        utf8 "\x7beventType: 'loanApplicationCreation', description:" ++ loanApplicationId
          ++ utf8 "' Successfully created'\x7d"
      match SetEvent h w1 (utf8 "evtSender") customEvent with
      | (w2, some err) => (w2, .error err)
      | (w2, none) => (w2, .ok none)

/-- `UpdateLoanApplication` (loan.go 114-154).  The error of `json.Unmarshal` is
assigned and never read. -/
def UpdateLoanApplication (h : Host) (w : World) (args : List Bytes) : World × Reply :=
  if args.length < 2 then
    (w, .error (utf8 "Expected atleast two arguments for loan application update"))
  else
    let loanApplicationId := args.getD 0 []
    let status := args.getD 1 []
    match GetState h w loanApplicationId with
    | .error err => (w, .error err)
    | .ok laBytes =>
      let (loanApplication, _) := jsonUnmarshal (sliceBytes laBytes) LoanApplication.zero
      let loanApplication := { loanApplication with Status := status }
      match jsonMarshal loanApplication with
      | .error err => (w, .error err)
      | .ok laBytes =>
        match PutState h w loanApplicationId laBytes with
        | (w1, some err) => (w1, .error err)
        | (w1, none) =>
          let customEvent :=
            utf8 "\x7beventType: 'loanApplicationUpdate', description:" ++ loanApplicationId
              ++ utf8 "' Successfully updated status'\x7d"
          match SetEvent h w1 (utf8 "evtSender") customEvent with
          | (w2, some err) => (w2, .error err)
          | (w2, none) => (w2, .ok none)

/-- `SampleChaincode.Init` (loan.go 156-158). -/
def Init (_h : Host) (w : World) (_function : Bytes) (_args : List Bytes) : World × Reply :=
  (w, .ok none)

/-- `SampleChaincode.Query` (loan.go 160-165). -/
def Query (h : Host) (w : World) (function : Bytes) (args : List Bytes) : World × Reply :=
  if function = utf8 "GetLoanApplication" then
    GetLoanApplication h w args
  else
    (w, .ok none)

/-- `GetCertAttribute` (loan.go 167-175): the Go result pair `(string, error)`. -/
def GetCertAttribute (h : Host) (attributeName : Bytes) : Bytes × Option GoError :=
  match h.ReadCertAttribute attributeName with
  | .error err =>
    ([], some (utf8 "Couldn't get attribute " ++ attributeName ++ utf8 ". Error: " ++ err))
  | .ok attr => (attr, none)

/-- `SampleChaincode.Invoke` (loan.go 177-189). -/
def Invoke (h : Host) (w : World) (function : Bytes) (args : List Bytes) : World × Reply :=
  if function = utf8 "CreateLoanApplication" then
    let (username, _) := GetCertAttribute h (utf8 "username")
    let (role, _) := GetCertAttribute h (utf8 "role")
    if role = utf8 "Bank_Home_Loan_Admin" then
      CreateLoanApplication h w args
    else
      (w, .error (username ++ utf8 " with role " ++ role
        ++ utf8 " does not have access to create a loan application"))
  else
    (w, .ok none)

/-! ## Vocabulary of the statements -/

/-- How a credential attribute reads to the chaincode: its value, or the empty
string when the host's read fails. -/
def attributeReadsAs (h : Host) (name : Bytes) : Bytes :=
  match h.ReadCertAttribute name with
  | .ok v => v
  | .error _ => []

/-- One entry-point call of the host into the chaincode. -/
inductive Call where
  | init (function : Bytes) (args : List Bytes)
  | query (function : Bytes) (args : List Bytes)
  | invoke (function : Bytes) (args : List Bytes)

/-- Runs one entry-point call. -/
def dispatch (h : Host) (w : World) : Call → World × Reply
  | .init f args => Init h w f args
  | .query f args => Query h w f args
  | .invoke f args => Invoke h w f args

/-- Runs a sequence of entry-point calls, each under its own host behaviour, and
returns the final world. -/
def runCalls (w : World) : List (Host × Call) → World
  | [] => w
  | (h, c) :: rest => runCalls (dispatch h w c).1 rest

/-- The payload of the event `CreateLoanApplication` builds for a loan id. -/
def creationEvent (loanApplicationId : Bytes) : Bytes :=
  utf8 "\x7beventType: 'loanApplicationCreation', description:" ++ loanApplicationId
    ++ utf8 "' Successfully created'\x7d"

/-- The payload of the event `UpdateLoanApplication` builds for a loan id. -/
def updateEvent (loanApplicationId : Bytes) : Bytes :=
  utf8 "\x7beventType: 'loanApplicationUpdate', description:" ++ loanApplicationId
    ++ utf8 "' Successfully updated status'\x7d"

/-- The bytes `UpdateLoanApplication` writes back when it read `stored` and was
given `status`: the encoding of whatever the decode left in the zero record, with
`Status` overwritten. -/
def updatedBytes (stored : Option Bytes) (status : Bytes) : Bytes :=
  encodeLoanApplication
    { (jsonUnmarshal (sliceBytes stored) LoanApplication.zero).1 with Status := status }

/-- What follows a value inside an object written by the encoder: a comma or the
closing brace. -/
def Delimited (rest : Bytes) : Prop :=
  ∃ c rest', rest = c :: rest' ∧ (c = ch ',' ∨ c = ch '}')

/-- `text` is read back as `v` by `parseValue`, with at least `k` units of fuel,
whenever the encoder's own delimiter follows it. -/
def Renders (k : Nat) (text : Bytes) (v : JVal) : Prop :=
  (∀ rest, skipSpace (text ++ rest) = text ++ rest) ∧
  ∀ fuel rest, k ≤ fuel → Delimited rest → parseValue fuel (text ++ rest) = some (v, rest)

/-- The fields of a `PersonalInfo`: tag name, encoded value, and the value as
read back. -/
def personalInfoFields (p : PersonalInfo) : List (Bytes × Bytes × JVal) :=
  [(utf8 "firstname", quote p.Firstname, .str (runes p.Firstname)),
   (utf8 "lastname", quote p.Lastname, .str (runes p.Lastname)),
   (utf8 "DOB", quote p.DOB, .str (runes p.DOB)),
   (utf8 "email", quote p.Email, .str (runes p.Email)),
   (utf8 "mobile", quote p.Mobile, .str (runes p.Mobile))]

/-- The fields of a `FinancialInfo`: tag name, encoded value, and the value as
read back. -/
def financialInfoFields (f : FinancialInfo) : List (Bytes × Bytes × JVal) :=
  [(utf8 "monthlySalary", formatInt f.MonthlySalary.val, .num (formatInt f.MonthlySalary.val)),
   (utf8 "monthlyRent", formatInt f.MonthlyRent.val, .num (formatInt f.MonthlyRent.val)),
   (utf8 "otherExpenditure", formatInt f.OtherExpenditure.val,
      .num (formatInt f.OtherExpenditure.val)),
   (utf8 "monthlyLoanPayment", formatInt f.MonthlyLoanPayment.val,
      .num (formatInt f.MonthlyLoanPayment.val))]

/-- The fields of a `LoanApplication`: tag name, encoded value, and the value as
read back. -/
def loanApplicationFields (la : LoanApplication) : List (Bytes × Bytes × JVal) :=
  [(utf8 "id", quote la.ID, .str (runes la.ID)),
   (utf8 "propertyId", quote la.PropertyId, .str (runes la.PropertyId)),
   (utf8 "landId", quote la.LandId, .str (runes la.LandId)),
   (utf8 "permitId", quote la.PermitId, .str (runes la.PermitId)),
   (utf8 "buyerId", quote la.BuyerId, .str (runes la.BuyerId)),
   (utf8 "appraiserApplicationId", quote la.AppraisalApplicationId,
      .str (runes la.AppraisalApplicationId)),
   (utf8 "salesContractId", quote la.SalesContractId, .str (runes la.SalesContractId)),
   (utf8 "personalInfo", encodePersonalInfo la.PersonalInfo,
      .obj ((personalInfoFields la.PersonalInfo).map fun t => (runes t.1, t.2.2))),
   (utf8 "financialInfo", encodeFinancialInfo la.FinancialInfo,
      .obj ((financialInfoFields la.FinancialInfo).map fun t => (runes t.1, t.2.2))),
   (utf8 "status", quote la.Status, .str (runes la.Status)),
   (utf8 "requestedAmount", formatInt la.RequestedAmount.val,
      .num (formatInt la.RequestedAmount.val)),
   (utf8 "fairMarketValue", formatInt la.FairMarketValue.val,
      .num (formatInt la.FairMarketValue.val)),
   (utf8 "approvedAmount", formatInt la.ApprovedAmount.val,
      .num (formatInt la.ApprovedAmount.val)),
   (utf8 "reviewerId", quote la.ReviewerId, .str (runes la.ReviewerId)),
   (utf8 "lastModifiedDate", quote la.LastModifiedDate, .str (runes la.LastModifiedDate))]


/-! ## Concrete hosts, worlds and records used as test inputs -/

/-- A ledger with no key and no event. -/
def emptyWorld : World := ⟨fun _ => none, []⟩

/-- A host none of whose calls fail, for a caller with the given user name and
role. -/
def workingHost (username role : Bytes) : Host where
  ReadCertAttribute := fun n =>
    if n = utf8 "username" then .ok username
    else if n = utf8 "role" then .ok role
    else .error (utf8 "attribute not found")
  getFault := fun _ _ => none
  putFault := fun _ _ _ => none
  eventFault := fun _ _ _ => none

/-- The loan administrator, on a host none of whose calls fail. -/
def adminHost : Host := workingHost (utf8 "admin") (utf8 "Bank_Home_Loan_Admin")

/-- A teller, on a host none of whose calls fail. -/
def tellerHost : Host := workingHost (utf8 "alice") (utf8 "Teller")

/-- A host for the loan administrator whose ledger reads fail. -/
def unreadableHost : Host :=
  { adminHost with getFault := fun _ _ => some (utf8 "ledger unavailable") }

/-- A host for the loan administrator that stores but refuses every event. -/
def muteHost : Host :=
  { adminHost with eventFault := fun _ _ _ => some (utf8 "event refused") }

/-- A submitted application for 250000. -/
def sampleLoan : LoanApplication :=
  { LoanApplication.zero with
    ID := utf8 "L1", BuyerId := utf8 "B7", Status := utf8 "SUBMITTED",
    RequestedAmount := ⟨250000, by omega⟩,
    PersonalInfo :=
      { PersonalInfo.zero with Firstname := utf8 "Ann", Email := utf8 "ann@example.org" } }

/-- The record `sampleLoan` as a client might send it: its own key order, white
space, only some of the fields, and a member the record has no field for. -/
def clientPayload : Bytes :=
  utf8 ("\x7b \"id\": \"L1\", \"status\": \"SUBMITTED\", \"requestedAmount\": 250000,\n"
    ++ "  \"personalInfo\": \x7b\"firstname\": \"Ann\", \"email\": \"ann@example.org\"\x7d,\n"
    ++ "  \"buyerId\": \"B7\", \"notes\": [1, true, null] \x7d")

/-- A ledger that holds the encoding of `sampleLoan` under "L1". -/
def sampleWorld : World := emptyWorld.put (utf8 "L1") (encodeLoanApplication sampleLoan)

/-- A status that is not valid UTF-8: the bytes 41 FF 42. -/
def badStatus : Bytes := [65, 255, 66]

/-- What `badStatus` reads as once it went through JSON: "A", U+FFFD, "B". -/
def badStatusRead : Bytes := [65, 239, 191, 189, 66]

/-- A stored text that is JSON but not a loan application: the amount is a
string, which `json.Unmarshal` reports as a type error after storing the members
it could. -/
def partialPayload : Bytes :=
  utf8 "\x7b\"buyerId\":\"B7\",\"fairMarketValue\":7,\"requestedAmount\":\"oops\"\x7d"

/-- What the failed decode of `partialPayload` leaves in the zero record. -/
def partialLoan : LoanApplication :=
  { LoanApplication.zero with BuyerId := utf8 "B7", FairMarketValue := ⟨7, by omega⟩ }

/-- A ledger that holds `partialPayload` under "L3". -/
def partialWorld : World := emptyWorld.put (utf8 "L3") partialPayload


/-! # Theorems -/
/-! ## UTF-8 -/

theorem byte_val (n : Nat) : (byte n).val = n % 256 := rfl

theorem char_scalar (c : Char) :
    c.toNat < 55296 ∨ (57343 < c.toNat ∧ c.toNat < 1114112) := by
  have h := c.valid
  simp only [UInt32.isValidChar, Nat.isValidChar] at h
  exact h

theorem decodeRune_one (b0 : Byte) (rest : Bytes) (h0 : b0.val < 128) :
    decodeRune (b0 :: rest) = (b0.val, 1) := by
  simp [decodeRune, h0]

theorem decodeRune_two (b0 b1 : Byte) (rest : Bytes) (h0 : 194 ≤ b0.val ∧ b0.val ≤ 223)
    (h1 : isCont b1 = true) :
    decodeRune (b0 :: b1 :: rest) = ((b0.val - 192) * 64 + (b1.val - 128), 2) := by
  simp only [decodeRune]
  rw [if_neg (by omega), if_pos h0]
  simp [h1]

theorem decodeRune_three (b0 b1 b2 : Byte) (rest : Bytes)
    (h0 : 224 ≤ b0.val ∧ b0.val ≤ 239)
    (h1 : (if b0.val = 224 then 160 else 128) ≤ b1.val
      ∧ b1.val ≤ (if b0.val = 237 then 159 else 191) ∧ isCont b2 = true) :
    decodeRune (b0 :: b1 :: b2 :: rest)
      = ((b0.val - 224) * 4096 + (b1.val - 128) * 64 + (b2.val - 128), 3) := by
  simp only [decodeRune]
  rw [if_neg (by omega), if_neg (by omega), if_pos h0]
  rw [if_pos h1]

theorem decodeRune_four (b0 b1 b2 b3 : Byte) (rest : Bytes)
    (h0 : 240 ≤ b0.val ∧ b0.val ≤ 244)
    (h1 : (if b0.val = 240 then 144 else 128) ≤ b1.val
      ∧ b1.val ≤ (if b0.val = 244 then 143 else 191) ∧ isCont b2 = true ∧ isCont b3 = true) :
    decodeRune (b0 :: b1 :: b2 :: b3 :: rest)
      = ((b0.val - 240) * 262144 + (b1.val - 128) * 4096 + (b2.val - 128) * 64
          + (b3.val - 128), 4) := by
  simp only [decodeRune]
  rw [if_neg (by omega), if_neg (by omega), if_neg (by omega), if_pos h0]
  rw [if_pos h1]

/-- Decoding the encoding of a character gives the character and its width. -/
theorem decodeRune_encodeRune (c : Char) (rest : Bytes) :
    decodeRune (encodeRune c.toNat ++ rest) = (c.toNat, (encodeRune c.toNat).length) := by
  have hv := char_scalar c
  generalize c.toNat = r at hv ⊢
  unfold encodeRune
  split
  · simp only [List.singleton_append, List.length_singleton]
    rw [decodeRune_one _ _ (by simp only [byte_val]; omega)]
    simp only [byte_val, Prod.mk.injEq, and_true]; omega
  split
  · simp only [List.cons_append, List.nil_append, List.length_cons, List.length_nil]
    rw [decodeRune_two _ _ _ (by simp only [byte_val]; omega)
      (by simp only [isCont, byte_val, Bool.and_eq_true, decide_eq_true_eq]; omega)]
    simp only [byte_val, Prod.mk.injEq, and_true]; omega
  split
  · omega
  split
  · simp only [List.cons_append, List.nil_append, List.length_cons, List.length_nil]
    rw [decodeRune_three _ _ _ _ (by simp only [byte_val]; omega)
      (by simp only [isCont, byte_val, Bool.and_eq_true, decide_eq_true_eq]
          split_ifs <;> omega)]
    simp only [byte_val, Prod.mk.injEq, and_true]; omega
  · simp only [List.cons_append, List.nil_append, List.length_cons, List.length_nil]
    rw [decodeRune_four _ _ _ _ _ (by simp only [byte_val]; omega)
      (by simp only [isCont, byte_val, Bool.and_eq_true, decide_eq_true_eq]
          split_ifs <;> omega)]
    simp only [byte_val, Prod.mk.injEq, and_true]; omega

theorem encodeRune_length_pos (r : Nat) : 1 ≤ (encodeRune r).length := by
  unfold encodeRune
  repeat' split
  all_goals simp

/-- The five ways a decoding step on non-empty input can go. -/
theorem decodeRune_cases (b : Byte) (bs : Bytes) :
    (b.val < 128 ∧ decodeRune (b :: bs) = (b.val, 1)) ∨
    (∃ b1 tl, bs = b1 :: tl ∧ (194 ≤ b.val ∧ b.val ≤ 223) ∧ isCont b1 = true) ∨
    (∃ b1 b2 tl, bs = b1 :: b2 :: tl ∧ (224 ≤ b.val ∧ b.val ≤ 239) ∧
      ((if b.val = 224 then 160 else 128) ≤ b1.val
        ∧ b1.val ≤ (if b.val = 237 then 159 else 191) ∧ isCont b2 = true)) ∨
    (∃ b1 b2 b3 tl, bs = b1 :: b2 :: b3 :: tl ∧ (240 ≤ b.val ∧ b.val ≤ 244) ∧
      ((if b.val = 240 then 144 else 128) ≤ b1.val
        ∧ b1.val ≤ (if b.val = 244 then 143 else 191) ∧ isCont b2 = true
        ∧ isCont b3 = true)) ∨
    (128 ≤ b.val ∧ decodeRune (b :: bs) = (65533, 1)) := by
  by_cases h0 : b.val < 128
  · exact Or.inl ⟨h0, decodeRune_one b bs h0⟩
  by_cases h1 : 194 ≤ b.val ∧ b.val ≤ 223
  · cases bs with
    | nil => exact Or.inr (Or.inr (Or.inr (Or.inr ⟨by omega, by simp [decodeRune, h0, h1]⟩)))
    | cons b1 tl =>
      by_cases hc : isCont b1 = true
      · exact Or.inr (Or.inl ⟨b1, tl, rfl, h1, hc⟩)
      · exact Or.inr (Or.inr (Or.inr (Or.inr ⟨by omega, by simp [decodeRune, h0, h1, hc]⟩)))
  by_cases h2 : 224 ≤ b.val ∧ b.val ≤ 239
  · have hbad : ∀ xs : Bytes, (∀ b1 b2 tl, xs = b1 :: b2 :: tl →
          ¬ ((if b.val = 224 then 160 else 128) ≤ b1.val
            ∧ b1.val ≤ (if b.val = 237 then 159 else 191) ∧ isCont b2 = true)) →
        decodeRune (b :: xs) = (65533, 1) := by
      intro xs hx
      simp only [decodeRune]
      rw [if_neg h0, if_neg h1, if_pos h2]
      split
      · next b1 b2 tl => rw [if_neg (hx b1 b2 tl rfl)]
      · rfl
    by_cases hx : ∃ b1 b2 tl, bs = b1 :: b2 :: tl ∧
        ((if b.val = 224 then 160 else 128) ≤ b1.val
          ∧ b1.val ≤ (if b.val = 237 then 159 else 191) ∧ isCont b2 = true)
    · obtain ⟨b1, b2, tl, hbs, hc⟩ := hx
      exact Or.inr (Or.inr (Or.inl ⟨b1, b2, tl, hbs, h2, hc⟩))
    · exact Or.inr (Or.inr (Or.inr (Or.inr ⟨by omega,
        hbad bs (fun b1 b2 tl hbs hc => hx ⟨b1, b2, tl, hbs, hc⟩)⟩)))
  by_cases h3 : 240 ≤ b.val ∧ b.val ≤ 244
  · have hbad : ∀ xs : Bytes, (∀ b1 b2 b3 tl, xs = b1 :: b2 :: b3 :: tl →
          ¬ ((if b.val = 240 then 144 else 128) ≤ b1.val
            ∧ b1.val ≤ (if b.val = 244 then 143 else 191) ∧ isCont b2 = true
            ∧ isCont b3 = true)) →
        decodeRune (b :: xs) = (65533, 1) := by
      intro xs hx
      simp only [decodeRune]
      rw [if_neg h0, if_neg h1, if_neg h2, if_pos h3]
      split
      · next b1 b2 b3 tl => rw [if_neg (hx b1 b2 b3 tl rfl)]
      · rfl
    by_cases hx : ∃ b1 b2 b3 tl, bs = b1 :: b2 :: b3 :: tl ∧
        ((if b.val = 240 then 144 else 128) ≤ b1.val
          ∧ b1.val ≤ (if b.val = 244 then 143 else 191) ∧ isCont b2 = true
          ∧ isCont b3 = true)
    · obtain ⟨b1, b2, b3, tl, hbs, hc⟩ := hx
      exact Or.inr (Or.inr (Or.inr (Or.inl ⟨b1, b2, b3, tl, hbs, h3, hc⟩)))
    · exact Or.inr (Or.inr (Or.inr (Or.inr ⟨by omega,
        hbad bs (fun b1 b2 b3 tl hbs hc => hx ⟨b1, b2, b3, tl, hbs, hc⟩)⟩)))
  · refine Or.inr (Or.inr (Or.inr (Or.inr ⟨by omega, ?_⟩)))
    simp only [decodeRune]
    rw [if_neg h0, if_neg h1, if_neg h2, if_neg h3]

/-- Every decoding step on non-empty input takes at least one byte and no more
than there are. -/
theorem decodeRune_width (b : Byte) (bs : Bytes) :
    1 ≤ (decodeRune (b :: bs)).2 ∧ (decodeRune (b :: bs)).2 ≤ (b :: bs).length := by
  rcases decodeRune_cases b bs with ⟨_, h⟩ | ⟨b1, tl, rfl, h0, h1⟩ | ⟨b1, b2, tl, rfl, h0, h1⟩
    | ⟨b1, b2, b3, tl, rfl, h0, h1⟩ | ⟨_, h⟩
  · rw [h]; simp
  · rw [decodeRune_two _ _ _ h0 h1]; simp
  · rw [decodeRune_three _ _ _ _ h0 h1]; simp
  · rw [decodeRune_four _ _ _ _ _ h0 h1]; simp
  · rw [h]; simp

/-- A decoding step that found a valid encoding looks only at the bytes it
takes. -/
theorem decodeRune_take (b : Byte) (bs rest : Bytes)
    (hv : ¬ ((decodeRune (b :: bs)).1 = 65533 ∧ (decodeRune (b :: bs)).2 = 1)) :
    decodeRune ((b :: bs).take (decodeRune (b :: bs)).2 ++ rest) = decodeRune (b :: bs) := by
  rcases decodeRune_cases b bs with ⟨h0, h⟩ | ⟨b1, tl, rfl, h0, h1⟩ | ⟨b1, b2, tl, rfl, h0, h1⟩
    | ⟨b1, b2, b3, tl, rfl, h0, h1⟩ | ⟨_, h⟩
  · rw [h]
    simp only [List.take_succ_cons, List.take_zero, List.singleton_append]
    exact decodeRune_one b rest h0
  · rw [decodeRune_two _ _ _ h0 h1]
    simp only [List.take_succ_cons, List.take_zero, List.cons_append, List.nil_append]
    exact decodeRune_two _ _ _ h0 h1
  · rw [decodeRune_three _ _ _ _ h0 h1]
    simp only [List.take_succ_cons, List.take_zero, List.cons_append, List.nil_append]
    exact decodeRune_three _ _ _ _ h0 h1
  · rw [decodeRune_four _ _ _ _ _ h0 h1]
    simp only [List.take_succ_cons, List.take_zero, List.cons_append, List.nil_append]
    exact decodeRune_four _ _ _ _ _ h0 h1
  · rw [h] at hv
    exact absurd ⟨rfl, rfl⟩ hv

theorem runesAux_encodeChars (cs : List Char) :
    ∀ n, (encodeChars cs).length ≤ n → runesAux n (encodeChars cs) = cs := by
  induction cs with
  | nil => intro n _; cases n <;> simp [encodeChars, runesAux]
  | cons c cs ih =>
    intro n hn
    have hpos := encodeRune_length_pos c.toNat
    have hdec := decodeRune_encodeRune c (encodeChars cs)
    simp only [encodeChars, List.length_append] at hn
    obtain ⟨m, rfl⟩ : ∃ m, n = m + 1 := ⟨n - 1, by omega⟩
    simp only [encodeChars]
    cases he : encodeRune c.toNat ++ encodeChars cs with
    | nil =>
      have := congrArg List.length he
      simp only [List.length_append, List.length_nil] at this
      omega
    | cons b bs =>
      rw [he] at hdec
      simp only [runesAux, hdec, Char.ofNat_toNat]
      rw [← he, List.drop_left, ih m (by omega)]

/-- The characters of the encoding of a text are the text's. -/
theorem runes_encodeChars (cs : List Char) : runes (encodeChars cs) = cs :=
  runesAux_encodeChars cs _ (le_refl _)

/-- The UTF-8 encoding of a text is valid UTF-8. -/
theorem validUTF8_encodeChars (cs : List Char) : ValidUTF8 (encodeChars cs) := by
  simp only [ValidUTF8, coerceUTF8, runes_encodeChars]

theorem validUTF8_utf8 (s : String) : ValidUTF8 (utf8 s) := validUTF8_encodeChars s.data

theorem validUTF8_coerceUTF8 (s : Bytes) : ValidUTF8 (coerceUTF8 s) :=
  validUTF8_encodeChars _

/-! ## The JSON codec reads back what it writes -/

theorem hexVal_hexDigit : ∀ n, n < 16 → hexVal (hexDigit n) = some n := by decide

theorem getu4_byte (n : Nat) (hn : n < 256) :
    getu4 (ch '0') (ch '0') (hexDigit (n / 16)) (hexDigit (n % 16)) = some n := by
  have h1 : hexVal (hexDigit (n / 16)) = some (n / 16) := hexVal_hexDigit _ (by omega)
  have h2 : hexVal (hexDigit (n % 16)) = some (n % 16) := hexVal_hexDigit _ (by omega)
  have h0 : hexVal (ch '0') = some 0 := by decide
  simp only [getu4, h0, h1, h2, Option.some.injEq]
  omega

theorem escapeByte_length_pos (b : Byte) : 1 ≤ (escapeByte b).length := by
  unfold escapeByte
  repeat' split
  all_goals simp

/-- Reading what `escapeByte` wrote for an ASCII byte gives that byte back. -/
theorem unquoteBody_escapeByte (b : Byte) (hb : b.val < 128) (fuel : Nat) (rest : Bytes) :
    unquoteBody (fuel + 1) (escapeByte b ++ rest) =
      (unquoteBody fuel rest).map fun p => (Char.ofNat b.val :: p.1, p.2) := by
  unfold escapeByte
  split
  · next h => subst h; simp [unquoteBody, simpleEscape]; rfl
  split
  · next h => subst h; simp [unquoteBody, simpleEscape]; rfl
  split
  · next h => subst h; simp [unquoteBody, simpleEscape]; rfl
  split
  · next h => subst h; simp [unquoteBody, simpleEscape]; rfl
  split
  · next h => subst h; simp [unquoteBody, simpleEscape]; rfl
  split
  · next h1 h2 h3 h4 h5 h =>
    have hs : isSurrogate b.val = false := by
      simp [isSurrogate]; omega
    have hq : ch '\\' ≠ ch '"' := by decide
    simp [unquoteBody, hq, getu4_byte b.val b.isLt, hs]
  · next h1 h2 h3 h4 h5 h6 =>
    have : ¬ b.val < 32 := fun hh => h6 (Or.inl hh)
    simp [unquoteBody, h1, h2, this, hb]

theorem unquoteBody_u4 (a b c d : Byte) (r : Nat) (hg : getu4 a b c d = some r)
    (hs : isSurrogate r = false) (fuel : Nat) (rest : Bytes) :
    unquoteBody (fuel + 1) (ch '\\' :: ch 'u' :: a :: b :: c :: d :: rest) =
      (unquoteBody fuel rest).map fun p => (Char.ofNat r :: p.1, p.2) := by
  have hq : ch '\\' ≠ ch '"' := by decide
  simp [unquoteBody, hq, hg, hs]

theorem escapeAux_runes_length (n : Nat) :
    ∀ s : Bytes, (runesAux n s).length ≤ (escapeAux n s).length := by
  induction n with
  | zero => intro s; simp [runesAux, escapeAux]
  | succ n ih =>
    intro s
    cases s with
    | nil => simp [runesAux, escapeAux]
    | cons b bs =>
      have hw := decodeRune_width b bs
      simp only [runesAux, escapeAux, List.length_cons]
      split
      · next hb =>
        have h1 := escapeByte_length_pos b
        have h2 := ih bs
        rw [decodeRune_one b bs hb]
        simp only [List.drop_succ_cons, List.drop_zero, List.length_append]
        omega
      split
      · next hb hinv =>
        have h2 := ih bs
        rw [hinv.2]
        simp only [List.drop_succ_cons, List.drop_zero, List.length_append, List.length_cons,
          List.length_nil]
        omega
      split
      · have h2 := ih ((b :: bs).drop (decodeRune (b :: bs)).2)
        simp only [List.length_append, List.length_cons, List.length_nil]
        omega
      split
      · have h2 := ih ((b :: bs).drop (decodeRune (b :: bs)).2)
        simp only [List.length_append, List.length_cons, List.length_nil]
        omega
      · have h2 := ih ((b :: bs).drop (decodeRune (b :: bs)).2)
        simp only [List.length_append, List.length_take, List.length_cons] at hw ⊢
        omega

/-- Reading the escaped body of any Go string gives the string's characters,
U+FFFD standing for every invalid byte. -/
theorem unquoteBody_escapeAux (n : Nat) :
    ∀ (s rest : Bytes) (fuel : Nat), s.length ≤ n → (runesAux n s).length < fuel →
      unquoteBody fuel (escapeAux n s ++ ch '"' :: rest) = some (runesAux n s, rest) := by
  induction n with
  | zero =>
    intro s rest fuel hs hf
    obtain ⟨f, rfl⟩ : ∃ f, fuel = f + 1 := ⟨fuel - 1, by omega⟩
    simp [escapeAux, runesAux, unquoteBody]
  | succ n ih =>
    intro s rest fuel hs hf
    obtain ⟨f, rfl⟩ : ∃ f, fuel = f + 1 := ⟨fuel - 1, by omega⟩
    cases s with
    | nil => simp [escapeAux, runesAux, unquoteBody]
    | cons b bs =>
      have hw := decodeRune_width b bs
      simp only [List.length_cons] at hs hw
      simp only [runesAux, List.length_cons] at hf
      have hdrop : ((b :: bs).drop (decodeRune (b :: bs)).2).length ≤ n := by
        simp only [List.length_drop, List.length_cons]; omega
      have hrec := ih ((b :: bs).drop (decodeRune (b :: bs)).2) rest f hdrop (by omega)
      simp only [escapeAux, runesAux]
      split
      · next hb =>
        have h1 := decodeRune_one b bs hb
        rw [h1] at hrec
        simp only [List.drop_succ_cons, List.drop_zero] at hrec
        rw [List.append_assoc, unquoteBody_escapeByte b hb, hrec, h1]
        simp
      split
      · next hb hinv =>
        simp only [hinv.1, hinv.2, List.drop_succ_cons, List.drop_zero] at hrec ⊢
        have hg : getu4 (ch 'f') (ch 'f') (ch 'f') (ch 'd') = some 65533 := by decide
        have hsur : isSurrogate 65533 = false := by decide
        simp only [List.cons_append, List.nil_append, List.append_assoc]
        rw [unquoteBody_u4 _ _ _ _ _ hg hsur, hrec]
        rfl
      split
      · next hb hinv h28 =>
        simp only [h28] at hrec ⊢
        have hg : getu4 (ch '2') (ch '0') (ch '2') (ch '8') = some 8232 := by decide
        have hsur : isSurrogate 8232 = false := by decide
        simp only [List.cons_append, List.nil_append, List.append_assoc]
        rw [unquoteBody_u4 _ _ _ _ _ hg hsur, hrec]
        rfl
      split
      · next hb hinv h28 h29 =>
        simp only [h29] at hrec ⊢
        have hg : getu4 (ch '2') (ch '0') (ch '2') (ch '9') = some 8233 := by decide
        have hsur : isSurrogate 8233 = false := by decide
        simp only [List.cons_append, List.nil_append, List.append_assoc]
        rw [unquoteBody_u4 _ _ _ _ _ hg hsur, hrec]
        rfl
      · next hb hinv h28 h29 =>
        have htake := decodeRune_take b bs
          (escapeAux n ((b :: bs).drop (decodeRune (b :: bs)).2) ++ ch '"' :: rest) hinv
        obtain ⟨k, hk⟩ : ∃ k, (decodeRune (b :: bs)).2 = k + 1 :=
          ⟨(decodeRune (b :: bs)).2 - 1, by omega⟩
        have hlen : ((b :: bs).take (decodeRune (b :: bs)).2).length
            = (decodeRune (b :: bs)).2 := by
          simp only [List.length_take, List.length_cons]; omega
        have hq1 : b ≠ ch '"' := by
          intro h; subst h; exact hb (by decide)
        have hq2 : b ≠ ch '\\' := by
          intro h; subst h; exact hb (by decide)
        have hshape : (b :: bs).take (decodeRune (b :: bs)).2
            = b :: bs.take k := by rw [hk]; rfl
        rw [List.append_assoc]
        rw [hshape] at htake hlen ⊢
        simp only [List.cons_append] at htake ⊢
        simp only [unquoteBody, hq1, hq2, if_false, htake]
        rw [if_neg (by omega), if_neg hb]
        have hd : List.drop (decodeRune (b :: bs)).2
            (b :: (bs.take k ++ (escapeAux n ((b :: bs).drop (decodeRune (b :: bs)).2)
              ++ ch '"' :: rest)))
            = escapeAux n ((b :: bs).drop (decodeRune (b :: bs)).2) ++ ch '"' :: rest := by
          rw [← List.cons_append, ← hlen, List.drop_left]
        rw [hd, hrec]
        simp

theorem quote_append (s rest : Bytes) :
    quote s ++ rest = ch '"' :: (escape s ++ ch '"' :: rest) := by
  simp [quote]

theorem unquoteBody_quote (s rest : Bytes) :
    unquoteBody ((escape s ++ ch '"' :: rest).length + 1) (escape s ++ ch '"' :: rest)
      = some (runes s, rest) := by
  have h := escapeAux_runes_length s.length s
  exact unquoteBody_escapeAux s.length s rest _ (le_refl _) (by
    simp only [escape, List.length_append, List.length_cons]
    omega)

/-! ### Decimal integers -/

theorem digitChar_facts : ∀ d, d < 10 →
    isDigit (digitChar d) = true ∧ digitVal (digitChar d) = some d ∧
    (d ≠ 0 → digitChar d ≠ ch '0') := by decide

theorem isDigit_not_special (c : Byte) (h : isDigit c = true) :
    c ≠ ch '"' ∧ c ≠ ch '-' ∧ c ≠ ch '+' ∧ c ≠ ch '.' ∧ c ≠ ch 'e' ∧ c ≠ ch 'E' ∧ isSpace c = false := by
  simp only [isDigit, Bool.and_eq_true, decide_eq_true_eq] at h
  refine ⟨?_, ?_, ?_, ?_, ?_, ?_, ?_⟩
  · rintro rfl; revert h; decide
  · rintro rfl; revert h; decide
  · rintro rfl; revert h; decide
  · rintro rfl; revert h; decide
  · rintro rfl; revert h; decide
  · rintro rfl; revert h; decide
  · simp only [isSpace, Bool.or_eq_false_iff, decide_eq_false_iff_not]
    refine ⟨⟨⟨?_, ?_⟩, ?_⟩, ?_⟩ <;> (rintro rfl; revert h; decide)

theorem natDigitsAux_append (fuel : Nat) :
    ∀ (n : Nat) (acc : Bytes), natDigitsAux fuel n acc = natDigitsAux fuel n [] ++ acc := by
  induction fuel with
  | zero => intro n acc; simp [natDigitsAux]
  | succ f ih =>
    intro n acc
    simp only [natDigitsAux]
    split
    · simp
    · rw [ih (n / 10) (digitChar (n % 10) :: acc), ih (n / 10) [digitChar (n % 10)]]
      simp

theorem parseNatAux_append (xs ys : Bytes) :
    ∀ a, parseNatAux (xs ++ ys) a = (parseNatAux xs a).bind (parseNatAux ys) := by
  induction xs with
  | nil => intro a; simp [parseNatAux]
  | cons c cs ih =>
    intro a
    simp only [List.cons_append, parseNatAux]
    cases digitVal c with
    | none => simp
    | some d => simp [ih]

theorem parseNatAux_natDigitsAux (fuel : Nat) :
    ∀ n, n < fuel → parseNatAux (natDigitsAux fuel n []) 0 = some n := by
  induction fuel with
  | zero => intro n h; omega
  | succ f ih =>
    intro n h
    simp only [natDigitsAux]
    split
    · next hlt =>
      simp [parseNatAux, (digitChar_facts n hlt).2.1]
    · next hge =>
      rw [natDigitsAux_append, parseNatAux_append, ih (n / 10) (by omega)]
      have := (digitChar_facts (n % 10) (by omega)).2.1
      simp only [Option.some_bind, parseNatAux, this, Option.some.injEq]
      omega

/-- The digits of a positive number: a first digit that is not zero, then
digits. -/
theorem natDigitsAux_shape (fuel : Nat) :
    ∀ (n : Nat) (acc : Bytes), 0 < n → n < fuel →
      ∃ c ds, natDigitsAux fuel n acc = c :: (ds ++ acc) ∧ isDigit c = true ∧ c ≠ ch '0' ∧
        ∀ x ∈ ds, isDigit x = true := by
  induction fuel with
  | zero => intro n acc _ h; omega
  | succ f ih =>
    intro n acc hpos h
    simp only [natDigitsAux]
    split
    · next hlt =>
      have hf := digitChar_facts n hlt
      exact ⟨digitChar n, [], by simp, hf.1, hf.2.2 (by omega), by simp⟩
    · next hge =>
      obtain ⟨c, ds, heq, hc, hc0, hds⟩ :=
        ih (n / 10) (digitChar (n % 10) :: acc) (by omega) (by omega)
      refine ⟨c, ds ++ [digitChar (n % 10)], by simp [heq], hc, hc0, ?_⟩
      intro x hx
      simp only [List.mem_append, List.mem_singleton] at hx
      rcases hx with hx | hx
      · exact hds x hx
      · rw [hx]; exact (digitChar_facts (n % 10) (by omega)).1

theorem natDigits_zero : natDigits 0 = [ch '0'] := by decide

theorem natDigits_shape (n : Nat) (hpos : 0 < n) :
    ∃ c ds, natDigits n = c :: ds ∧ isDigit c = true ∧ c ≠ ch '0' ∧ ∀ x ∈ ds, isDigit x = true := by
  obtain ⟨c, ds, heq, hc, hc0, hds⟩ := natDigitsAux_shape (n + 1) n [] hpos (by omega)
  exact ⟨c, ds, by simpa [natDigits] using heq, hc, hc0, hds⟩

theorem parseNat_natDigits (n : Nat) : parseNat (natDigits n) = some n := by
  have h := parseNatAux_natDigitsAux (n + 1) n (by omega)
  unfold parseNat
  change (match natDigitsAux (n + 1) n [] with
    | [] => none
    | _ :: _ => parseNatAux (natDigitsAux (n + 1) n []) 0) = some n
  cases hd : natDigitsAux (n + 1) n [] with
  | nil =>
    simp only [natDigitsAux] at hd
    split at hd
    · simp at hd
    · rw [natDigitsAux_append] at hd
      simp at hd
  | cons c cs => simp only []; rw [← hd]; exact h

theorem spanDigits_append (ds rest : Bytes) (hds : ∀ x ∈ ds, isDigit x = true)
    (hrest : Delimited rest) : spanDigits (ds ++ rest) = (ds, rest) := by
  induction ds with
  | nil =>
    obtain ⟨c, rest', rfl, hc⟩ := hrest
    have : isDigit c = false := by rcases hc with rfl | rfl <;> decide
    simp [spanDigits, this]
  | cons d ds ih =>
    have hd : isDigit d = true := hds d (by simp)
    have := ih (fun x hx => hds x (by simp [hx]))
    simp [spanDigits, hd, this]

theorem scanFraction_delimited (lit rest : Bytes) (hrest : Delimited rest) :
    scanFraction lit rest = some (lit, rest) := by
  obtain ⟨c, rest', rfl, hc⟩ := hrest
  have h1 : c ≠ ch '.' := by rcases hc with rfl | rfl <;> decide
  have h2 : c ≠ ch 'e' := by rcases hc with rfl | rfl <;> decide
  have h3 : c ≠ ch 'E' := by rcases hc with rfl | rfl <;> decide
  simp [scanFraction, scanExponent, h1, h2, h3]

theorem scanInteger_natDigits (sign : Bytes) (n : Nat) (rest : Bytes)
    (hrest : Delimited rest) :
    scanInteger sign (natDigits n ++ rest) = some (sign ++ natDigits n, rest) := by
  rcases Nat.eq_zero_or_pos n with rfl | hpos
  · rw [natDigits_zero]
    simp [scanInteger, scanFraction_delimited _ _ hrest]
  · obtain ⟨c, ds, heq, hc, hc0, hds⟩ := natDigits_shape n hpos
    rw [heq]
    simp [scanInteger, hc, hc0, spanDigits_append ds rest hds hrest,
      scanFraction_delimited _ _ hrest]

theorem formatInt_head (n : Int) :
    ∃ c cs, formatInt n = c :: cs ∧ (c = ch '-' ∨ isDigit c = true) := by
  unfold formatInt
  split
  · exact ⟨ch '-', _, rfl, Or.inl rfl⟩
  · rcases Nat.eq_zero_or_pos n.natAbs with h0 | hpos
    · rw [h0, natDigits_zero]
      exact ⟨ch '0', [], rfl, Or.inr (by decide)⟩
    · obtain ⟨c, ds, heq, hc, _, _⟩ := natDigits_shape _ hpos
      exact ⟨c, ds, heq, Or.inr hc⟩

theorem scanNumber_formatInt (n : Int) (rest : Bytes) (hrest : Delimited rest) :
    scanNumber (formatInt n ++ rest) = some (formatInt n, rest) := by
  unfold formatInt
  split
  · simp [scanNumber, scanInteger_natDigits _ _ _ hrest]
  · rcases Nat.eq_zero_or_pos n.natAbs with h0 | hpos
    · rw [h0, natDigits_zero]
      have h0m : ch '0' ≠ ch '-' := by decide
      simp [scanNumber, scanInteger, scanFraction_delimited _ _ hrest, h0m]
    · obtain ⟨c, ds, heq, hc, hc0, hds⟩ := natDigits_shape _ hpos
      have hne : c ≠ ch '-' := (isDigit_not_special c hc).2.1
      have := scanInteger_natDigits [] n.natAbs rest hrest
      rw [heq] at this ⊢
      simpa [scanNumber, hne] using this

theorem parseInt_formatInt (n : Int) : parseInt (formatInt n) = some n := by
  unfold formatInt
  split
  · next hneg =>
    have h1 : parseInt (ch '-' :: natDigits n.natAbs)
        = (parseNat (natDigits n.natAbs)).map fun k => -Int.ofNat k := by
      simp [parseInt]
    rw [h1, parseNat_natDigits]
    simp only [Option.map_some', Option.some.injEq, Int.ofNat_eq_coe]
    omega
  · next hpos =>
    have hp := parseNat_natDigits n.natAbs
    obtain ⟨c, ds, heq, hc⟩ : ∃ c ds, natDigits n.natAbs = c :: ds ∧ isDigit c = true := by
      rcases Nat.eq_zero_or_pos n.natAbs with h0 | hpos
      · rw [h0, natDigits_zero]; exact ⟨ch '0', [], rfl, by decide⟩
      · obtain ⟨c, ds, heq, hc, _, _⟩ := natDigits_shape _ hpos
        exact ⟨c, ds, heq, hc⟩
    have hs := isDigit_not_special c hc
    rw [heq] at hp ⊢
    have h1 : parseInt (c :: ds) = (parseNat (c :: ds)).map Int.ofNat := by
      simp [parseInt, hs.2.1, hs.2.2.1]
    rw [h1, hp]
    simp only [Option.map_some', Option.some.injEq, Int.ofNat_eq_coe]
    omega

theorem storeInt_formatInt (g old : GoInt) :
    storeInt (.num (formatInt g.val)) old = (g, none) := by
  simp only [storeInt, parseInt_formatInt]
  rw [dif_pos g.property]

/-! ### Parsing what the encoder writes -/

theorem Renders.mono {k k' : Nat} {text : Bytes} {v : JVal} (h : Renders k text v)
    (hk : k ≤ k') : Renders k' text v :=
  ⟨h.1, fun fuel rest hf hr => h.2 fuel rest (le_trans hk hf) hr⟩

theorem renders_quote (s : Bytes) : Renders 1 (quote s) (.str (runes s)) := by
  refine ⟨fun rest => ?_, fun fuel rest hf _ => ?_⟩
  · rw [quote_append]
    rfl
  · obtain ⟨f, rfl⟩ : ∃ f, fuel = f + 1 := ⟨fuel - 1, by omega⟩
    rw [quote_append]
    simp only [parseValue, if_true, unquoteBody_quote, Option.map_some']

theorem renders_formatInt (n : Int) : Renders 1 (formatInt n) (.num (formatInt n)) := by
  obtain ⟨c, cs, heq, hc⟩ := formatInt_head n
  have hq : c ≠ ch '"' := by
    rcases hc with rfl | hc
    · decide
    · exact (isDigit_not_special c hc).1
  have hsp : isSpace c = false := by
    rcases hc with rfl | hc
    · decide
    · exact (isDigit_not_special c hc).2.2.2.2.2.2
  refine ⟨fun rest => ?_, fun fuel rest hf hr => ?_⟩
  · rw [heq]
    simp [skipSpace, hsp]
  · obtain ⟨f, rfl⟩ : ∃ f, fuel = f + 1 := ⟨fuel - 1, by omega⟩
    have hscan := scanNumber_formatInt n rest hr
    rw [heq] at hscan ⊢
    have hc' : c = ch '-' ∨ isDigit c = true := hc
    simp only [List.cons_append] at hscan ⊢
    simp only [parseValue, hq, if_false, hc', if_true, hscan, Option.map_some']

theorem parseMember_field (k : Nat) (name text : Bytes) (v : JVal)
    (h : Renders k text v) (fuel : Nat) (rest : Bytes) (hf : k + 1 ≤ fuel)
    (hr : Delimited rest) :
    parseMember fuel (quote name ++ ch ':' :: (text ++ rest)) = some ((runes name, v), rest) := by
  obtain ⟨f, rfl⟩ : ∃ f, fuel = f + 1 := ⟨fuel - 1, by omega⟩
  rw [quote_append]
  have hcolon : skipSpace (ch ':' :: (text ++ rest)) = ch ':' :: (text ++ rest) := rfl
  simp only [parseMember, if_true, unquoteBody_quote, hcolon, h.1 rest,
    h.2 f rest (by omega) hr, Option.map_some']

/-- The text of the fields after the first, up to and including the closing
brace, is delimited. -/
theorem encodeFields_delimited (fields : List (Bytes × Bytes)) (rest : Bytes) :
    Delimited (encodeFields false fields ++ ch '}' :: rest) := by
  cases fields with
  | nil => exact ⟨ch '}', rest, by simp [encodeFields], Or.inr rfl⟩
  | cons fld more =>
    obtain ⟨name, value⟩ := fld
    exact ⟨ch ',', _, by simp [encodeFields]; rfl, Or.inl rfl⟩

theorem parseMembers_fields (k : Nat) (fields : List (Bytes × Bytes × JVal))
    (h : ∀ t ∈ fields, Renders k t.2.1 t.2.2) :
    ∀ (fuel : Nat) (rest : Bytes), k + 2 + fields.length ≤ fuel →
      parseMembers fuel
          (encodeFields false (fields.map fun t => (t.1, t.2.1)) ++ ch '}' :: rest)
        = some (fields.map fun t => (runes t.1, t.2.2), rest) := by
  induction fields with
  | nil =>
    intro fuel rest hf
    obtain ⟨f, rfl⟩ : ∃ f, fuel = f + 1 := ⟨fuel - 1, by omega⟩
    simp +decide [encodeFields, parseMembers, skipSpace, isSpace]
  | cons t more ih =>
    intro fuel rest hf
    obtain ⟨f, rfl⟩ : ∃ f, fuel = f + 1 := ⟨fuel - 1, by omega⟩
    obtain ⟨name, text, v⟩ := t
    simp only [List.length_cons] at hf
    have ht : Renders k text v := h (name, text, v) (by simp)
    have hmore := ih (fun t ht => h t (by simp [ht])) f rest (by omega)
    have hd := encodeFields_delimited (more.map fun t => (t.1, t.2.1)) rest
    have hm := parseMember_field k name text v ht f _ (by omega) hd
    have hshape : encodeFields false (((name, text, v) :: more).map fun t => (t.1, t.2.1))
          ++ ch '}' :: rest
        = ch ',' :: (quote name ++ ch ':' :: (text
            ++ (encodeFields false (more.map fun t => (t.1, t.2.1)) ++ ch '}' :: rest))) := by
      simp [encodeFields]
    have hsp : skipSpace (quote name ++ ch ':' :: (text
            ++ (encodeFields false (more.map fun t => (t.1, t.2.1)) ++ ch '}' :: rest)))
        = quote name ++ ch ':' :: (text
            ++ (encodeFields false (more.map fun t => (t.1, t.2.1)) ++ ch '}' :: rest)) := by
      rw [quote_append]; rfl
    rw [hshape]
    have hcomma : ∀ cs, skipSpace (ch ',' :: cs) = ch ',' :: cs := fun _ => rfl
    simp only [parseMembers, hcomma, if_true, hsp, hm, hmore, Option.map_some', List.map_cons]

theorem parseValue_encodeStruct (k : Nat) (fields : List (Bytes × Bytes × JVal))
    (h : ∀ t ∈ fields, Renders k t.2.1 t.2.2) (fuel : Nat) (rest : Bytes)
    (hf : k + 3 + fields.length ≤ fuel) :
    parseValue fuel (encodeStruct (fields.map fun t => (t.1, t.2.1)) ++ rest)
      = some (.obj (fields.map fun t => (runes t.1, t.2.2)), rest) := by
  obtain ⟨f, rfl⟩ : ∃ f, fuel = f + 1 := ⟨fuel - 1, by omega⟩
  cases fields with
  | nil => simp +decide [encodeStruct, encodeFields, parseValue, isDigit, skipSpace, isSpace]
  | cons t more =>
    obtain ⟨name, text, v⟩ := t
    simp only [List.length_cons] at hf
    have ht : Renders k text v := h (name, text, v) (by simp)
    have hmore := parseMembers_fields k more (fun t ht => h t (by simp [ht])) f rest (by omega)
    have hd := encodeFields_delimited (more.map fun t => (t.1, t.2.1)) rest
    have hm := parseMember_field k name text v ht f _ (by omega) hd
    have hshape : encodeStruct (((name, text, v) :: more).map fun t => (t.1, t.2.1)) ++ rest
        = ch '{' :: (ch '"' :: (escape name ++ ch '"' :: ch ':' :: (text
            ++ (encodeFields false (more.map fun t => (t.1, t.2.1)) ++ ch '}' :: rest)))) := by
      simp [encodeStruct, encodeFields, quote]
    rw [quote_append] at hm
    rw [hshape]
    have hb1 : ch '{' ≠ ch '"' := by decide
    have hb2 : ¬ (ch '{' = ch '-' ∨ isDigit (ch '{') = true) := by decide
    have hq : ch '"' ≠ ch '}' := by decide
    have hsp : ∀ cs, skipSpace (ch '"' :: cs) = ch '"' :: cs := fun _ => rfl
    simp only [parseValue, hb1, hb2, if_false, if_true, hsp, hq, hm, hmore, Option.map_some',
      List.map_cons]

theorem renders_encodeStruct (k : Nat) (fields : List (Bytes × Bytes × JVal))
    (h : ∀ t ∈ fields, Renders k t.2.1 t.2.2) :
    Renders (k + 3 + fields.length) (encodeStruct (fields.map fun t => (t.1, t.2.1)))
      (.obj (fields.map fun t => (runes t.1, t.2.2))) :=
  ⟨fun rest => by simp only [encodeStruct, List.cons_append]; rfl,
    fun fuel rest hf _ => parseValue_encodeStruct k fields h fuel rest hf⟩

/-! ### The record round trip -/

theorem encodePersonalInfo_eq (p : PersonalInfo) :
    encodePersonalInfo p = encodeStruct ((personalInfoFields p).map fun t => (t.1, t.2.1)) := rfl

theorem encodeFinancialInfo_eq (f : FinancialInfo) :
    encodeFinancialInfo f = encodeStruct ((financialInfoFields f).map fun t => (t.1, t.2.1)) :=
  rfl

theorem encodeLoanApplication_eq (la : LoanApplication) :
    encodeLoanApplication la
      = encodeStruct ((loanApplicationFields la).map fun t => (t.1, t.2.1)) := rfl

theorem renders_personalInfo (p : PersonalInfo) :
    Renders 9 (encodePersonalInfo p)
      (.obj ((personalInfoFields p).map fun t => (runes t.1, t.2.2))) := by
  rw [encodePersonalInfo_eq]
  refine renders_encodeStruct 1 (personalInfoFields p) ?_
  intro t ht
  simp only [personalInfoFields, List.mem_cons, List.mem_singleton, List.not_mem_nil,
    or_false] at ht
  rcases ht with rfl | rfl | rfl | rfl | rfl <;> exact renders_quote _

theorem renders_financialInfo (f : FinancialInfo) :
    Renders 9 (encodeFinancialInfo f)
      (.obj ((financialInfoFields f).map fun t => (runes t.1, t.2.2))) := by
  rw [encodeFinancialInfo_eq]
  refine (renders_encodeStruct 1 (financialInfoFields f) ?_).mono (by simp [financialInfoFields])
  intro t ht
  simp only [financialInfoFields, List.mem_cons, List.mem_singleton, List.not_mem_nil,
    or_false] at ht
  rcases ht with rfl | rfl | rfl | rfl <;> exact renders_formatInt _

theorem renders_loanApplicationFields (la : LoanApplication) :
    ∀ t ∈ loanApplicationFields la, Renders 9 t.2.1 t.2.2 := by
  intro t ht
  simp only [loanApplicationFields, List.mem_cons, List.mem_singleton, List.not_mem_nil,
    or_false] at ht
  rcases ht with rfl | rfl | rfl | rfl | rfl | rfl | rfl | rfl | rfl | rfl | rfl | rfl | rfl
    | rfl | rfl
  all_goals first
    | exact (renders_quote _).mono (by omega)
    | exact (renders_formatInt _).mono (by omega)
    | exact renders_personalInfo _
    | exact renders_financialInfo _

theorem encodeFields_length (fields : List (Bytes × Bytes)) :
    ∀ first, 2 * fields.length ≤ (encodeFields first fields).length := by
  induction fields with
  | nil => intro first; simp
  | cons t more ih =>
    intro first
    obtain ⟨name, value⟩ := t
    have := ih false
    simp only [encodeFields, quote, List.length_append, List.length_cons, List.cons_append]
    omega

theorem parseJSON_encodeLoanApplication (la : LoanApplication) :
    parseJSON (encodeLoanApplication la)
      = some (.obj ((loanApplicationFields la).map fun t => (runes t.1, t.2.2))) := by
  have hlen : 9 + 3 + (loanApplicationFields la).length
      ≤ (encodeLoanApplication la).length + 1 := by
    have := encodeFields_length ((loanApplicationFields la).map fun t => (t.1, t.2.1)) true
    rw [encodeLoanApplication_eq]
    simp only [encodeStruct, List.length_cons, List.length_append, List.length_map] at this ⊢
    have h15 : (loanApplicationFields la).length = 15 := rfl
    omega
  have hp := parseValue_encodeStruct 9 (loanApplicationFields la)
    (renders_loanApplicationFields la) ((encodeLoanApplication la).length + 1) [] hlen
  rw [← encodeLoanApplication_eq, List.append_nil] at hp
  have hsp : skipSpace (encodeLoanApplication la) = encodeLoanApplication la := rfl
  simp only [parseJSON, hsp, hp]
  rfl

theorem fieldIndex_personalInfo :
    fieldIndex personalInfoNames "firstname".data = some 0 ∧
    fieldIndex personalInfoNames "lastname".data = some 1 ∧
    fieldIndex personalInfoNames "DOB".data = some 2 ∧
    fieldIndex personalInfoNames "email".data = some 3 ∧
    fieldIndex personalInfoNames "mobile".data = some 4 := by decide

theorem fieldIndex_financialInfo :
    fieldIndex financialInfoNames "monthlySalary".data = some 0 ∧
    fieldIndex financialInfoNames "monthlyRent".data = some 1 ∧
    fieldIndex financialInfoNames "otherExpenditure".data = some 2 ∧
    fieldIndex financialInfoNames "monthlyLoanPayment".data = some 3 := by decide

theorem fieldIndex_loanApplication :
    fieldIndex loanApplicationNames "id".data = some 0 ∧
    fieldIndex loanApplicationNames "propertyId".data = some 1 ∧
    fieldIndex loanApplicationNames "landId".data = some 2 ∧
    fieldIndex loanApplicationNames "permitId".data = some 3 ∧
    fieldIndex loanApplicationNames "buyerId".data = some 4 ∧
    fieldIndex loanApplicationNames "appraiserApplicationId".data = some 5 ∧
    fieldIndex loanApplicationNames "salesContractId".data = some 6 ∧
    fieldIndex loanApplicationNames "personalInfo".data = some 7 ∧
    fieldIndex loanApplicationNames "financialInfo".data = some 8 ∧
    fieldIndex loanApplicationNames "status".data = some 9 ∧
    fieldIndex loanApplicationNames "requestedAmount".data = some 10 ∧
    fieldIndex loanApplicationNames "fairMarketValue".data = some 11 ∧
    fieldIndex loanApplicationNames "approvedAmount".data = some 12 ∧
    fieldIndex loanApplicationNames "reviewerId".data = some 13 ∧
    fieldIndex loanApplicationNames "lastModifiedDate".data = some 14 := by
  set_option maxRecDepth 100000 in decide

theorem storePersonalInfo_fields (p old : PersonalInfo) :
    storePersonalInfo (.obj ((personalInfoFields p).map fun t => (runes t.1, t.2.2))) old
      = (p.coerceUTF8, none) := by
  obtain ⟨h0, h1, h2, h3, h4⟩ := fieldIndex_personalInfo
  simp [storePersonalInfo, personalInfoFields, storePersonalInfoMembers,
    storePersonalInfoField, utf8, runes_encodeChars, h0, h1, h2, h3, h4, storeString,
    firstError, PersonalInfo.coerceUTF8, coerceUTF8]

theorem storeFinancialInfo_fields (f old : FinancialInfo) :
    storeFinancialInfo (.obj ((financialInfoFields f).map fun t => (runes t.1, t.2.2))) old
      = (f, none) := by
  obtain ⟨h0, h1, h2, h3⟩ := fieldIndex_financialInfo
  simp [storeFinancialInfo, financialInfoFields, storeFinancialInfoMembers,
    storeFinancialInfoField, utf8, runes_encodeChars, h0, h1, h2, h3, storeInt_formatInt,
    firstError]

theorem storeLoanApplication_fields (la old : LoanApplication) :
    storeLoanApplication (.obj ((loanApplicationFields la).map fun t => (runes t.1, t.2.2))) old
      = (la.coerceUTF8, none) := by
  obtain ⟨h0, h1, h2, h3, h4, h5, h6, h7, h8, h9, h10, h11, h12, h13, h14⟩ :=
    fieldIndex_loanApplication
  simp [storeLoanApplication, loanApplicationFields, storeLoanApplicationMembers,
    storeLoanApplicationField, utf8, runes_encodeChars, h0, h1, h2, h3, h4, h5, h6, h7, h8, h9,
    h10, h11, h12, h13, h14, storeString, storeInt_formatInt, storePersonalInfo_fields,
    storeFinancialInfo_fields, firstError, LoanApplication.coerceUTF8, coerceUTF8]

/-- Decoding what `json.Marshal` wrote for a record gives the record back with its
strings coerced to valid UTF-8, without error, whatever the target held before. -/
theorem jsonUnmarshal_encode (la old : LoanApplication) :
    jsonUnmarshal (encodeLoanApplication la) old = (la.coerceUTF8, none) := by
  simp only [jsonUnmarshal, parseJSON_encodeLoanApplication, storeLoanApplication_fields]

/-! ## The parser's fuel is never used up -/

theorem skipSpace_length_le (cs : Bytes) : (skipSpace cs).length ≤ cs.length := by
  induction cs with
  | nil => simp [skipSpace]
  | cons c cs ih =>
    simp only [skipSpace]
    split
    · simp only [List.length_cons]; omega
    · simp

theorem spanDigits_length_le (cs : Bytes) : (spanDigits cs).2.length ≤ cs.length := by
  induction cs with
  | nil => simp [spanDigits]
  | cons c cs ih =>
    simp only [spanDigits]
    split
    · simp only [List.length_cons]; omega
    · simp

theorem scanExponent_rest (lit cs l r : Bytes) (h : scanExponent lit cs = some (l, r)) :
    r.length ≤ cs.length := by
  unfold scanExponent at h
  split at h
  · next e cs1 =>
    split at h
    · have hs : ∀ (p : Bytes × Bytes), p.2.length ≤ cs1.length →
          (match spanDigits p.2 with
            | ([], _) => none
            | (ds, rest) => some (lit ++ e :: p.1 ++ ds, rest)) = some (l, r) →
          r.length ≤ cs1.length := by
        intro p hp hm
        have hsd := spanDigits_length_le p.2
        split at hm
        · cases hm
        · next ds rest _ heq =>
          simp only [Option.some.injEq, Prod.mk.injEq] at hm
          rw [heq] at hsd
          simp only at hsd
          rw [← hm.2]
          omega
      have := hs _ (by
        split
        · next s cs2 => split <;> simp
        · simp) h
      simp only [List.length_cons]
      omega
    · simp only [Option.some.injEq, Prod.mk.injEq] at h
      rw [← h.2]
  · simp only [Option.some.injEq, Prod.mk.injEq] at h
    rw [← h.2]

theorem scanFraction_rest (lit cs l r : Bytes) (h : scanFraction lit cs = some (l, r)) :
    r.length ≤ cs.length := by
  unfold scanFraction at h
  split at h
  · next p cs1 =>
    split at h
    · have hsd := spanDigits_length_le cs1
      split at h
      · cases h
      · next ds rest _ heq =>
        rw [heq] at hsd
        have := scanExponent_rest _ _ _ _ h
        simp only [List.length_cons] at hsd ⊢
        omega
    · exact scanExponent_rest _ _ _ _ h
  · simp only [Option.some.injEq, Prod.mk.injEq] at h
    rw [← h.2]

theorem scanInteger_rest (sign cs l r : Bytes) (h : scanInteger sign cs = some (l, r)) :
    r.length < cs.length := by
  unfold scanInteger at h
  split at h
  · next c cs1 =>
    split at h
    · have := scanFraction_rest _ _ _ _ h
      simp only [List.length_cons]; omega
    · split at h
      · have := scanFraction_rest _ _ _ _ h
        have := spanDigits_length_le cs1
        simp only [List.length_cons]; omega
      · cases h
  · cases h

theorem scanNumber_rest (cs l r : Bytes) (h : scanNumber cs = some (l, r)) :
    r.length < cs.length := by
  unfold scanNumber at h
  split at h
  · next c cs1 =>
    split at h
    · have := scanInteger_rest _ _ _ _ h
      simp only [List.length_cons]; omega
    · exact scanInteger_rest _ _ _ _ h
  · cases h

theorem dropPrefix_rest (p : Bytes) :
    ∀ (cs r : Bytes), dropPrefix p cs = some r → r.length ≤ cs.length := by
  induction p with
  | nil => intro cs r h; simp only [dropPrefix, Option.some.injEq] at h; rw [h]
  | cons a p ih =>
    intro cs r h
    cases cs with
    | nil => simp [dropPrefix] at h
    | cons c cs =>
      simp only [dropPrefix] at h
      split at h
      · have := ih cs r h
        simp only [List.length_cons]; omega
      · cases h

theorem lowSurrogate_rest (r1 : Nat) (cs : Bytes) (r : Nat) (rest : Bytes)
    (h : lowSurrogate r1 cs = some (r, rest)) : rest.length < cs.length := by
  unfold lowSurrogate at h
  split at h
  · split at h
    · split at h
      · split at h
        · simp only [Option.some.injEq, Prod.mk.injEq] at h
          rw [← h.2]; simp only [List.length_cons]; omega
        · cases h
      · cases h
    · cases h
  · cases h

theorem unquoteBody_rest (fuel : Nat) :
    ∀ (cs : Bytes) (s : List Char) (r : Bytes),
      unquoteBody fuel cs = some (s, r) → r.length < cs.length := by
  induction fuel with
  | zero => intro cs s r h; simp [unquoteBody] at h
  | succ f ih =>
    intro cs s r h
    have step : ∀ (x : Char) (cs' : Bytes),
        Option.map (fun p : List Char × Bytes => (x :: p.1, p.2)) (unquoteBody f cs')
          = some (s, r) → r.length < cs'.length := by
      intro x cs' hm
      cases hu : unquoteBody f cs' with
      | none => simp [hu] at hm
      | some p =>
        obtain ⟨s', r'⟩ := p
        simp only [hu, Option.map_some', Option.some.injEq, Prod.mk.injEq] at hm
        have := ih cs' s' r' hu
        rw [← hm.2]; exact this
    cases cs with
    | nil => simp [unquoteBody] at h
    | cons c cs =>
      simp only [unquoteBody] at h
      split at h
      · simp only [Option.some.injEq, Prod.mk.injEq] at h
        rw [← h.2]; simp
      · split at h
        · split at h
          · cases h
          · next e cs1 =>
            split at h
            · split at h
              · next a b c1 d cs2 =>
                split at h
                · cases h
                · next r1 _ =>
                  split at h
                  · split at h
                    · next rr cs3 hl =>
                      have := step _ _ h
                      have := lowSurrogate_rest _ _ _ _ hl
                      simp only [List.length_cons]; omega
                    · have := step _ _ h
                      simp only [List.length_cons]; omega
                  · have := step _ _ h
                    simp only [List.length_cons]; omega
              · cases h
            · split at h
              · have := step _ _ h
                simp only [List.length_cons]; omega
              · cases h
        · split at h
          · cases h
          · split at h
            · have := step _ _ h
              simp only [List.length_cons]; omega
            · have := step _ _ h
              have hw := decodeRune_width c cs
              simp only [List.length_drop, List.length_cons] at this hw ⊢
              omega

theorem unquoteBody_fuel (f : Nat) :
    ∀ (g : Nat) (cs : Bytes), cs.length < f → cs.length < g →
      unquoteBody f cs = unquoteBody g cs := by
  induction f with
  | zero => intro g cs hf; omega
  | succ f ih =>
    intro g cs hf hg
    obtain ⟨g, rfl⟩ : ∃ g', g = g' + 1 := ⟨g - 1, by omega⟩
    cases cs with
    | nil => simp [unquoteBody]
    | cons c cs =>
      simp only [List.length_cons] at hf hg
      simp only [unquoteBody]
      split
      · rfl
      · split
        · split
          · rfl
          · next e cs1 =>
            simp only [List.length_cons] at hf hg
            split
            · split
              · next a b c1 d cs2 =>
                simp only [List.length_cons] at hf hg
                split
                · rfl
                · split
                  · split
                    · next rr cs3 hl =>
                      have := lowSurrogate_rest _ _ _ _ hl
                      rw [ih g cs3 (by omega) (by omega)]
                    · rw [ih g cs2 (by omega) (by omega)]
                  · rw [ih g cs2 (by omega) (by omega)]
              · rfl
            · split
              · rw [ih g cs1 (by omega) (by omega)]
              · rfl
        · split
          · rfl
          · split
            · rw [ih g cs (by omega) (by omega)]
            · have hw := decodeRune_width c cs
              rw [ih g _ (by simp only [List.length_drop, List.length_cons]; omega)
                (by simp only [List.length_drop, List.length_cons]; omega)]

/-- Every successful parse consumes input. -/
theorem parse_rest (fuel : Nat) :
    (∀ cs v r, parseValue fuel cs = some (v, r) → r.length < cs.length) ∧
    (∀ cs m r, parseMember fuel cs = some (m, r) → r.length < cs.length) ∧
    (∀ cs ms r, parseMembers fuel cs = some (ms, r) → r.length < cs.length) ∧
    (∀ cs vs r, parseElements fuel cs = some (vs, r) → r.length < cs.length) := by
  induction fuel with
  | zero => simp [parseValue, parseMember, parseMembers, parseElements]
  | succ f ih =>
    obtain ⟨ihV, ihM, ihMs, ihEs⟩ := ih
    refine ⟨?_, ?_, ?_, ?_⟩
    · intro cs v r h
      cases cs with
      | nil => simp [parseValue] at h
      | cons c cs =>
        simp only [parseValue] at h
        simp only [List.length_cons]
        split at h
        · cases hu : unquoteBody (cs.length + 1) cs with
          | none => simp [hu] at h
          | some p =>
            simp only [hu, Option.map_some', Option.some.injEq, Prod.mk.injEq] at h
            have := unquoteBody_rest _ cs p.1 p.2 hu
            rw [← h.2]; omega
        split at h
        · cases hu : scanNumber (c :: cs) with
          | none => simp [hu] at h
          | some p =>
            simp only [hu, Option.map_some', Option.some.injEq, Prod.mk.injEq] at h
            have := scanNumber_rest (c :: cs) p.1 p.2 hu
            simp only [List.length_cons] at this
            rw [← h.2]; omega
        split at h
        · have hsk := skipSpace_length_le cs
          split at h
          · cases h
          · next d ds heq =>
            rw [heq] at hsk
            simp only [List.length_cons] at hsk
            split at h
            · simp only [Option.some.injEq, Prod.mk.injEq] at h
              rw [← h.2]; omega
            · split at h
              · cases h
              · next m cs1 hm =>
                have h1 := ihM _ _ _ hm
                simp only [List.length_cons] at h1
                cases hu : parseMembers f cs1 with
                | none => simp [hu] at h
                | some p =>
                  simp only [hu, Option.map_some', Option.some.injEq, Prod.mk.injEq] at h
                  have := ihMs cs1 p.1 p.2 hu
                  rw [← h.2]; omega
        split at h
        · have hsk := skipSpace_length_le cs
          split at h
          · cases h
          · next d ds heq =>
            rw [heq] at hsk
            simp only [List.length_cons] at hsk
            split at h
            · simp only [Option.some.injEq, Prod.mk.injEq] at h
              rw [← h.2]; omega
            · split at h
              · cases h
              · next v1 cs1 hm =>
                have h1 := ihV _ _ _ hm
                simp only [List.length_cons] at h1
                cases hu : parseElements f cs1 with
                | none => simp [hu] at h
                | some p =>
                  simp only [hu, Option.map_some', Option.some.injEq, Prod.mk.injEq] at h
                  have := ihEs cs1 p.1 p.2 hu
                  rw [← h.2]; omega
        have hlit : ∀ (p : Bytes) (x : JVal),
            Option.map (fun r => (x, r)) (dropPrefix p cs) = some (v, r) →
            r.length < cs.length + 1 := by
          intro p x hm
          cases hu : dropPrefix p cs with
          | none => simp [hu] at hm
          | some r' =>
            simp only [hu, Option.map_some', Option.some.injEq, Prod.mk.injEq] at hm
            have := dropPrefix_rest p cs r' hu
            rw [← hm.2]; omega
        split at h
        · exact hlit _ _ h
        split at h
        · exact hlit _ _ h
        split at h
        · exact hlit _ _ h
        · cases h
    · intro cs m r h
      cases cs with
      | nil => simp [parseMember] at h
      | cons c cs =>
        simp only [parseMember] at h
        simp only [List.length_cons]
        split at h
        · split at h
          · cases h
          · next key cs1 hu =>
            have h1 := unquoteBody_rest _ _ _ _ hu
            have hsk := skipSpace_length_le cs1
            split at h
            · cases h
            · next colon cs2 heq =>
              rw [heq] at hsk
              simp only [List.length_cons] at hsk
              split at h
              · have hsk2 := skipSpace_length_le cs2
                cases hv : parseValue f (skipSpace cs2) with
                | none => simp [hv] at h
                | some p =>
                  simp only [hv, Option.map_some', Option.some.injEq, Prod.mk.injEq] at h
                  have := ihV _ p.1 p.2 hv
                  rw [← h.2]; omega
              · cases h
        · cases h
    · intro cs ms r h
      simp only [parseMembers] at h
      have hsk := skipSpace_length_le cs
      split at h
      · cases h
      · next sep cs1 heq =>
        rw [heq] at hsk
        simp only [List.length_cons] at hsk
        split at h
        · have hsk1 := skipSpace_length_le cs1
          split at h
          · cases h
          · next m cs2 hm =>
            have h1 := ihM _ _ _ hm
            cases hu : parseMembers f cs2 with
            | none => simp [hu] at h
            | some p =>
              simp only [hu, Option.map_some', Option.some.injEq, Prod.mk.injEq] at h
              have := ihMs cs2 p.1 p.2 hu
              rw [← h.2]; omega
        · split at h
          · simp only [Option.some.injEq, Prod.mk.injEq] at h
            rw [← h.2]; omega
          · cases h
    · intro cs vs r h
      simp only [parseElements] at h
      have hsk := skipSpace_length_le cs
      split at h
      · cases h
      · next sep cs1 heq =>
        rw [heq] at hsk
        simp only [List.length_cons] at hsk
        split at h
        · have hsk1 := skipSpace_length_le cs1
          split at h
          · cases h
          · next v1 cs2 hm =>
            have h1 := ihV _ _ _ hm
            cases hu : parseElements f cs2 with
            | none => simp [hu] at h
            | some p =>
              simp only [hu, Option.map_some', Option.some.injEq, Prod.mk.injEq] at h
              have := ihEs cs2 p.1 p.2 hu
              rw [← h.2]; omega
        · split at h
          · simp only [Option.some.injEq, Prod.mk.injEq] at h
            rw [← h.2]; omega
          · cases h

/-- Fuel above the length of the input is never used up: any two such amounts
give the same result. -/
theorem parse_fuel (f : Nat) :
    ∀ (g : Nat) (cs : Bytes), cs.length < f → cs.length < g →
      parseValue f cs = parseValue g cs ∧ parseMember f cs = parseMember g cs ∧
      parseMembers f cs = parseMembers g cs ∧ parseElements f cs = parseElements g cs := by
  induction f with
  | zero => intro g cs hf; omega
  | succ f ih =>
    intro g cs hf hg
    obtain ⟨g, rfl⟩ : ∃ g', g = g' + 1 := ⟨g - 1, by omega⟩
    have hsk := skipSpace_length_le cs
    refine ⟨?_, ?_, ?_, ?_⟩
    · cases cs with
      | nil => simp [parseValue]
      | cons c cs =>
        simp only [List.length_cons] at hf hg
        have hsk := skipSpace_length_le cs
        simp only [parseValue]
        split
        · rfl
        split
        · rfl
        split
        · split
          · rfl
          · next d ds heq =>
            rw [heq] at hsk
            simp only [List.length_cons] at hsk
            split
            · rfl
            · rw [(ih g (d :: ds) (by simp only [List.length_cons]; omega)
                (by simp only [List.length_cons]; omega)).2.1]
              split
              · rfl
              · next m cs1 hm =>
                have h1 := (parse_rest g).2.1 _ _ _ hm
                simp only [List.length_cons] at h1
                rw [(ih g cs1 (by omega) (by omega)).2.2.1]
        split
        · split
          · rfl
          · next d ds heq =>
            rw [heq] at hsk
            simp only [List.length_cons] at hsk
            split
            · rfl
            · rw [(ih g (d :: ds) (by simp only [List.length_cons]; omega)
                (by simp only [List.length_cons]; omega)).1]
              split
              · rfl
              · next v1 cs1 hm =>
                have h1 := (parse_rest g).1 _ _ _ hm
                simp only [List.length_cons] at h1
                rw [(ih g cs1 (by omega) (by omega)).2.2.2]
        rfl
    · cases cs with
      | nil => simp [parseMember]
      | cons c cs =>
        simp only [List.length_cons] at hf hg
        simp only [parseMember]
        split
        · split
          · rfl
          · next key cs1 hu =>
            have h1 := unquoteBody_rest _ _ _ _ hu
            have hsk1 := skipSpace_length_le cs1
            split
            · rfl
            · next colon cs2 heq =>
              rw [heq] at hsk1
              simp only [List.length_cons] at hsk1
              have hsk2 := skipSpace_length_le cs2
              split
              · rw [(ih g (skipSpace cs2) (by omega) (by omega)).1]
              · rfl
        · rfl
    · simp only [parseMembers]
      split
      · rfl
      · next sep cs1 heq =>
        rw [heq] at hsk
        simp only [List.length_cons] at hsk
        have hsk1 := skipSpace_length_le cs1
        split
        · rw [(ih g (skipSpace cs1) (by omega) (by omega)).2.1]
          split
          · rfl
          · next m cs2 hm =>
            have h1 := (parse_rest g).2.1 _ _ _ hm
            rw [(ih g cs2 (by omega) (by omega)).2.2.1]
        · rfl
    · simp only [parseElements]
      split
      · rfl
      · next sep cs1 heq =>
        rw [heq] at hsk
        simp only [List.length_cons] at hsk
        have hsk1 := skipSpace_length_le cs1
        split
        · rw [(ih g (skipSpace cs1) (by omega) (by omega)).1]
          split
          · rfl
          · next v1 cs2 hm =>
            have h1 := (parse_rest g).1 _ _ _ hm
            rw [(ih g cs2 (by omega) (by omega)).2.2.2]
        · rfl

/-- The fuel `parseJSON` hands to `parseValue` is enough: more fuel reads the same
value. -/
theorem parseJSON_fuel (cs : Bytes) (fuel : Nat) (hf : cs.length < fuel) :
    parseValue fuel (skipSpace cs) = parseValue (cs.length + 1) (skipSpace cs) := by
  have := skipSpace_length_le cs
  exact (parse_fuel fuel (cs.length + 1) (skipSpace cs) (by omega) (by omega)).1


/-! ## The fuel of the string functions is never used up -/

/-- More fuel than the length changes nothing for `runesAux`. -/
theorem runesAux_fuel (n : Nat) :
    ∀ (m : Nat) (s : Bytes), s.length ≤ n → s.length ≤ m → runesAux n s = runesAux m s := by
  induction n with
  | zero =>
    intro m s hn _
    have hs : s = [] := List.length_eq_zero.mp (Nat.le_zero.mp hn)
    subst hs
    cases m <;> rfl
  | succ n ih =>
    intro m s hn hm
    cases s with
    | nil => cases m <;> rfl
    | cons b bs =>
      obtain ⟨m, rfl⟩ : ∃ m', m = m' + 1 := ⟨m - 1, by simp only [List.length_cons] at hm; omega⟩
      have hw := decodeRune_width b bs
      simp only [List.length_cons] at hn hm hw
      simp only [runesAux]
      rw [ih m _ (by simp only [List.length_drop, List.length_cons]; omega)
        (by simp only [List.length_drop, List.length_cons]; omega)]

/-- More fuel than the length changes nothing for `escapeAux`. -/
theorem escapeAux_fuel (n : Nat) :
    ∀ (m : Nat) (s : Bytes), s.length ≤ n → s.length ≤ m → escapeAux n s = escapeAux m s := by
  induction n with
  | zero =>
    intro m s hn _
    have hs : s = [] := List.length_eq_zero.mp (Nat.le_zero.mp hn)
    subst hs
    cases m <;> rfl
  | succ n ih =>
    intro m s hn hm
    cases s with
    | nil => cases m <;> rfl
    | cons b bs =>
      obtain ⟨m, rfl⟩ : ∃ m', m = m' + 1 := ⟨m - 1, by simp only [List.length_cons] at hm; omega⟩
      have hw := decodeRune_width b bs
      simp only [List.length_cons] at hn hm hw
      have hd := ih m ((b :: bs).drop (decodeRune (b :: bs)).2)
        (by simp only [List.length_drop, List.length_cons]; omega)
        (by simp only [List.length_drop, List.length_cons]; omega)
      have ht := ih m bs (by omega) (by omega)
      simp only [escapeAux, hd, ht]

/-! ## The decoder writes valid UTF-8 only -/

theorem validUTF8_nil : ValidUTF8 [] := by decide

theorem storeString_valid (v : JVal) (old : Bytes) (h : ValidUTF8 old) :
    ValidUTF8 (storeString v old).1 := by
  cases v <;> simp only [storeString] <;> first | exact h | exact validUTF8_encodeChars _

theorem storePersonalInfoField_valid (p : PersonalInfo) (key : List Char) (v : JVal)
    (h : p.ValidUTF8) : (storePersonalInfoField p key v).1.ValidUTF8 := by
  obtain ⟨h0, h1, h2, h3, h4⟩ := h
  unfold storePersonalInfoField
  split <;> simp only [PersonalInfo.ValidUTF8] <;> refine ⟨?_, ?_, ?_, ?_, ?_⟩ <;>
    first | assumption | exact storeString_valid _ _ (by assumption)

theorem storePersonalInfoMembers_valid (ms : List (List Char × JVal)) :
    ∀ acc : PersonalInfo × Option JsonError, acc.1.ValidUTF8 →
      (storePersonalInfoMembers ms acc).1.ValidUTF8 := by
  induction ms with
  | nil => intro acc h; exact h
  | cons m ms ih =>
    intro acc h
    obtain ⟨key, v⟩ := m
    simp only [storePersonalInfoMembers]
    exact ih _ (storePersonalInfoField_valid _ _ _ h)

theorem storePersonalInfo_valid (v : JVal) (old : PersonalInfo) (h : old.ValidUTF8) :
    (storePersonalInfo v old).1.ValidUTF8 := by
  cases v <;> simp only [storePersonalInfo] <;>
    first | exact h | exact storePersonalInfoMembers_valid _ _ h

theorem storeLoanApplicationField_valid (la : LoanApplication) (key : List Char) (v : JVal)
    (h : la.ValidUTF8) : (storeLoanApplicationField la key v).1.ValidUTF8 := by
  obtain ⟨h0, h1, h2, h3, h4, h5, h6, h7, h8, h9, h10⟩ := h
  unfold storeLoanApplicationField
  generalize fieldIndex loanApplicationNames key = o
  match o with
  | none => exact ⟨h0, h1, h2, h3, h4, h5,
      h6, h7, h8, h9, h10⟩
  | some 0 => exact ⟨storeString_valid _ _ h0, h1, h2, h3, h4, h5,
      h6, h7, h8, h9, h10⟩
  | some 1 => exact ⟨h0, storeString_valid _ _ h1, h2, h3, h4, h5,
      h6, h7, h8, h9, h10⟩
  | some 2 => exact ⟨h0, h1, storeString_valid _ _ h2, h3, h4, h5,
      h6, h7, h8, h9, h10⟩
  | some 3 => exact ⟨h0, h1, h2, storeString_valid _ _ h3, h4, h5,
      h6, h7, h8, h9, h10⟩
  | some 4 => exact ⟨h0, h1, h2, h3, storeString_valid _ _ h4, h5,
      h6, h7, h8, h9, h10⟩
  | some 5 => exact ⟨h0, h1, h2, h3, h4, storeString_valid _ _ h5,
      h6, h7, h8, h9, h10⟩
  | some 6 => exact ⟨h0, h1, h2, h3, h4, h5,
      storeString_valid _ _ h6, h7, h8, h9, h10⟩
  | some 7 => exact ⟨h0, h1, h2, h3, h4, h5,
      h6, storePersonalInfo_valid _ _ h7, h8, h9, h10⟩
  | some 8 => exact ⟨h0, h1, h2, h3, h4, h5,
      h6, h7, h8, h9, h10⟩
  | some 9 => exact ⟨h0, h1, h2, h3, h4, h5,
      h6, h7, storeString_valid _ _ h8, h9, h10⟩
  | some 10 => exact ⟨h0, h1, h2, h3, h4, h5,
      h6, h7, h8, h9, h10⟩
  | some 11 => exact ⟨h0, h1, h2, h3, h4, h5,
      h6, h7, h8, h9, h10⟩
  | some 12 => exact ⟨h0, h1, h2, h3, h4, h5,
      h6, h7, h8, h9, h10⟩
  | some 13 => exact ⟨h0, h1, h2, h3, h4, h5,
      h6, h7, h8, storeString_valid _ _ h9, h10⟩
  | some 14 => exact ⟨h0, h1, h2, h3, h4, h5,
      h6, h7, h8, h9, storeString_valid _ _ h10⟩
  | some (_ + 15) => exact ⟨h0, h1, h2, h3, h4, h5,
      h6, h7, h8, h9, h10⟩

theorem storeLoanApplicationMembers_valid (ms : List (List Char × JVal)) :
    ∀ acc : LoanApplication × Option JsonError, acc.1.ValidUTF8 →
      (storeLoanApplicationMembers ms acc).1.ValidUTF8 := by
  induction ms with
  | nil => intro acc h; exact h
  | cons m ms ih =>
    intro acc h
    obtain ⟨key, v⟩ := m
    simp only [storeLoanApplicationMembers]
    exact ih _ (storeLoanApplicationField_valid _ _ _ h)

theorem storeLoanApplication_valid (v : JVal) (old : LoanApplication) (h : old.ValidUTF8) :
    (storeLoanApplication v old).1.ValidUTF8 := by
  cases v <;> simp only [storeLoanApplication] <;>
    first | exact h | exact storeLoanApplicationMembers_valid _ _ h

/-- Whatever the input, `json.Unmarshal` leaves valid UTF-8 in every string field
of a record that held valid UTF-8 before. -/
theorem jsonUnmarshal_valid (data : Bytes) (old : LoanApplication) (h : old.ValidUTF8) :
    (jsonUnmarshal data old).1.ValidUTF8 := by
  unfold jsonUnmarshal
  split
  · exact h
  · exact storeLoanApplication_valid _ _ h

theorem zero_valid : LoanApplication.zero.ValidUTF8 := by
  simp only [LoanApplication.ValidUTF8, PersonalInfo.ValidUTF8, LoanApplication.zero,
    PersonalInfo.zero]
  exact ⟨validUTF8_nil, validUTF8_nil, validUTF8_nil, validUTF8_nil, validUTF8_nil,
    validUTF8_nil, validUTF8_nil, ⟨validUTF8_nil, validUTF8_nil, validUTF8_nil, validUTF8_nil,
    validUTF8_nil⟩, validUTF8_nil, validUTF8_nil, validUTF8_nil⟩

theorem personalInfo_coerceUTF8_of_valid (p : PersonalInfo) (h : p.ValidUTF8) :
    p.coerceUTF8 = p := by
  obtain ⟨h0, h1, h2, h3, h4⟩ := h
  simp only [Loan.ValidUTF8] at h0 h1 h2 h3 h4
  simp only [PersonalInfo.coerceUTF8, h0, h1, h2, h3, h4]

theorem loanApplication_coerceUTF8_of_valid (la : LoanApplication) (h : la.ValidUTF8) :
    la.coerceUTF8 = la := by
  obtain ⟨h0, h1, h2, h3, h4, h5, h6, h7, h8, h9, h10⟩ := h
  simp only [Loan.ValidUTF8] at h0 h1 h2 h3 h4 h5 h6 h8 h9 h10
  simp only [LoanApplication.coerceUTF8, h0, h1, h2, h3, h4, h5, h6, h8, h9, h10,
    personalInfo_coerceUTF8_of_valid _ h7]

/-- Overwriting `Status` commutes with the coercion to valid UTF-8. -/
theorem coerceUTF8_withStatus (la : LoanApplication) (s : Bytes) :
    ({ la with Status := s } : LoanApplication).coerceUTF8
      = { la.coerceUTF8 with Status := coerceUTF8 s } := rfl

/-! ## Basic facts -/

theorem GetCertAttribute_fst (h : Host) (name : Bytes) :
    (GetCertAttribute h name).1 = attributeReadsAs h name := by
  unfold GetCertAttribute attributeReadsAs
  cases h.ReadCertAttribute name <;> rfl

theorem put_ledger_same (w : World) (key : Bytes) (value : Bytes) :
    (w.put key value).ledger key = some value := by
  simp [World.put]

theorem put_ledger_other (w : World) (key k : Bytes) (value : Bytes) (hk : k ≠ key) :
    (w.put key value).ledger k = w.ledger k := by
  simp [World.put, hk]

theorem read_world (h : Host) (w : World) (args : List Bytes) :
    (GetLoanApplication h w args).1 = w := by
  unfold GetLoanApplication
  split
  · rfl
  · simp only []
    cases GetState h w (args.getD 0 []) <;> rfl

theorem CreateLoanApplication_eq (h : Host) (w : World) (id payload : Bytes)
    (rest : List Bytes) :
    CreateLoanApplication h w (id :: payload :: rest) =
      match h.putFault w id payload with
      | some err => (w, .error err)
      | none =>
        match h.eventFault (w.put id payload) (utf8 "evtSender") (creationEvent id) with
        | some err => (w.put id payload, .error err)
        | none => ((w.put id payload).emit (utf8 "evtSender") (creationEvent id), .ok none) := by
  have hlen : ¬ ((id :: payload :: rest).length < 2) := by simp
  simp only [CreateLoanApplication, hlen, if_false, PutState, SetEvent, creationEvent,
    List.getD_cons_zero, List.getD_cons_succ]
  cases h.putFault w id payload with
  | some err => rfl
  | none =>
    simp only []
    cases h.eventFault (w.put id payload) (utf8 "evtSender")
      ((utf8 "\x7beventType: 'loanApplicationCreation', description:") ++ id
        ++ utf8 "' Successfully created'\x7d") <;> rfl

theorem Invoke_admin (h : Host) (w : World) (args : List Bytes)
    (hrole : attributeReadsAs h (utf8 "role") = utf8 "Bank_Home_Loan_Admin") :
    Invoke h w (utf8 "CreateLoanApplication") args = CreateLoanApplication h w args := by
  have h2 := GetCertAttribute_fst h (utf8 "role")
  simp only [Invoke, if_true]
  rw [h2, hrole]
  simp

/-! ## Claims about the dispatcher, Create and Read -/

/-- C1: a caller whose role reads as anything but "Bank_Home_Loan_Admin" gets the
access-denied error naming user name and role from
`Invoke("CreateLoanApplication", args)`, and the world (ledger and events) is
returned untouched. -/
theorem invoke_create_denied (h : Host) (w : World) (args : List Bytes)
    (hrole : attributeReadsAs h (utf8 "role") ≠ utf8 "Bank_Home_Loan_Admin") :
    Invoke h w (utf8 "CreateLoanApplication") args =
      (w, .error (attributeReadsAs h (utf8 "username") ++ utf8 " with role "
        ++ attributeReadsAs h (utf8 "role")
        ++ utf8 " does not have access to create a loan application")) := by
  have h1 := GetCertAttribute_fst h (utf8 "username")
  have h2 := GetCertAttribute_fst h (utf8 "role")
  simp only [Invoke, if_true]
  rw [h1, h2]
  simp [hrole]

theorem invoke_create_denied_witness :
    attributeReadsAs tellerHost (utf8 "role") ≠ utf8 "Bank_Home_Loan_Admin" ∧
    Invoke tellerHost emptyWorld (utf8 "CreateLoanApplication") [utf8 "L1", utf8 "\x7b\x7d"] =
      (emptyWorld,
        .error (utf8 "alice with role Teller does not have access to create a loan application")) :=
  ⟨by decide, invoke_create_denied tellerHost emptyWorld [utf8 "L1", utf8 "\x7b\x7d"]
    (by decide)⟩

/-- C2: for a caller whose role attribute is exactly "Bank_Home_Loan_Admin", with
the host accepting the put and the event, `Invoke("CreateLoanApplication",
[id, payload, ...])` returns no payload and no error; afterwards key `id` holds
exactly `payload` (whatever it held before), every other key is unchanged, and
exactly one event, the creation event naming `id` on channel "evtSender", has been
added. -/
theorem invoke_create_admin (h : Host) (w : World) (id payload : Bytes) (rest : List Bytes)
    (hrole : h.ReadCertAttribute (utf8 "role") = .ok (utf8 "Bank_Home_Loan_Admin"))
    (hput : h.putFault w id payload = none)
    (hevt : h.eventFault (w.put id payload) (utf8 "evtSender") (creationEvent id) = none) :
    (Invoke h w (utf8 "CreateLoanApplication") (id :: payload :: rest)).2 = .ok none ∧
    (Invoke h w (utf8 "CreateLoanApplication") (id :: payload :: rest)).1.ledger id
      = some payload ∧
    (∀ k, k ≠ id →
      (Invoke h w (utf8 "CreateLoanApplication") (id :: payload :: rest)).1.ledger k
        = w.ledger k) ∧
    (Invoke h w (utf8 "CreateLoanApplication") (id :: payload :: rest)).1.events =
      w.events ++ [(utf8 "evtSender",
        (utf8 "\x7beventType: 'loanApplicationCreation', description:") ++ id
          ++ utf8 "' Successfully created'\x7d")] := by
  have hr : attributeReadsAs h (utf8 "role") = utf8 "Bank_Home_Loan_Admin" := by
    simp [attributeReadsAs, hrole]
  rw [Invoke_admin h w _ hr, CreateLoanApplication_eq, hput]
  simp only [hevt]
  refine ⟨?_, ?_, ?_, ?_⟩
  · trivial
  · simp [World.emit, World.put]
  · intro k hk
    simp [World.emit, World.put, hk]
  · rfl

theorem invoke_create_admin_witness :
    adminHost.ReadCertAttribute (utf8 "role")
      = .ok (utf8 "Bank_Home_Loan_Admin") ∧
    (Invoke adminHost emptyWorld (utf8 "CreateLoanApplication")
      [utf8 "L1", utf8 "not json"]).1.ledger (utf8 "L1") = some (utf8 "not json") :=
  ⟨rfl, (invoke_create_admin adminHost emptyWorld
    (utf8 "L1") (utf8 "not json") [] rfl rfl rfl).2.1⟩

/-- C3 (as stated, refuted): after a successful create by the administrator the
host can still fail the fetch, and then `Query("GetLoanApplication", [id])`
returns that error instead of the payload. -/
theorem create_then_read_counterexample :
    (Invoke unreadableHost emptyWorld (utf8 "CreateLoanApplication")
      [utf8 "L1", utf8 "\x7b\x7d"]).2 = .ok none ∧
    (Query unreadableHost
      (Invoke unreadableHost emptyWorld (utf8 "CreateLoanApplication")
        [utf8 "L1", utf8 "\x7b\x7d"]).1
      (utf8 "GetLoanApplication") [utf8 "L1"]).2 = .error (utf8 "ledger unavailable") := by
  have hr : attributeReadsAs unreadableHost (utf8 "role") = utf8 "Bank_Home_Loan_Admin" := by decide
  rw [Invoke_admin _ _ _ hr, CreateLoanApplication_eq]
  exact ⟨rfl, rfl⟩

/-- C3 (amended): after a successful `Invoke("CreateLoanApplication", [id,
payload])` by a caller with role "Bank_Home_Loan_Admin", a
`Query("GetLoanApplication", [id])` whose host fetch succeeds returns, without
error and without changing the world, exactly `payload`; nothing is asked of
`payload`, so it need not be JSON. -/
theorem create_then_read (h1 h2 : Host) (w w1 : World) (id payload : Bytes)
    (hrole : h1.ReadCertAttribute (utf8 "role") = .ok (utf8 "Bank_Home_Loan_Admin"))
    (hcreate : Invoke h1 w (utf8 "CreateLoanApplication") [id, payload] = (w1, .ok none))
    (hget : h2.getFault w1 id = none) :
    Query h2 w1 (utf8 "GetLoanApplication") [id] = (w1, .ok (some payload)) := by
  have hr : attributeReadsAs h1 (utf8 "role") = utf8 "Bank_Home_Loan_Admin" := by
    simp [attributeReadsAs, hrole]
  rw [Invoke_admin h1 w _ hr, CreateLoanApplication_eq] at hcreate
  have hw1 : w1.ledger id = some payload := by
    cases hp : h1.putFault w id payload with
    | some err => simp [hp] at hcreate
    | none =>
      simp only [hp] at hcreate
      cases he : h1.eventFault (w.put id payload) (utf8 "evtSender") (creationEvent id) with
      | some err => simp [he] at hcreate
      | none =>
        simp only [he, Prod.mk.injEq] at hcreate
        rw [← hcreate.1]
        simp [World.emit, World.put]
  simp [Query, GetLoanApplication, GetState, hget, hw1]

theorem create_then_read_witness :
    adminHost.ReadCertAttribute (utf8 "role")
      = .ok (utf8 "Bank_Home_Loan_Admin") ∧
    Query tellerHost
      ((emptyWorld.put (utf8 "L1") (utf8 "\x7b\"id\":")).emit (utf8 "evtSender")
        (creationEvent (utf8 "L1")))
      (utf8 "GetLoanApplication") [utf8 "L1"] =
      ((emptyWorld.put (utf8 "L1") (utf8 "\x7b\"id\":")).emit (utf8 "evtSender")
          (creationEvent (utf8 "L1")),
        .ok (some (utf8 "\x7b\"id\":"))) :=
  ⟨rfl, create_then_read adminHost
    tellerHost emptyWorld _ (utf8 "L1") (utf8 "\x7b\"id\":") rfl
    (by
      have hr : attributeReadsAs adminHost (utf8 "role")
          = utf8 "Bank_Home_Loan_Admin" := by decide
      rw [Invoke_admin _ _ _ hr, CreateLoanApplication_eq]
      rfl)
    rfl⟩

/-- C4: with fewer than two arguments `CreateLoanApplication` fails with its
invalid-arguments error and hands back the world it was given, whatever the host
would have answered (so no put and no event was requested); the same holds when it
is reached through `Invoke` by the administrator. -/
theorem create_too_few_args (h : Host) (w : World) (args : List Bytes)
    (hlen : args.length < 2) :
    CreateLoanApplication h w args =
      (w, .error (utf8 "Expected atleast two arguments for loan application creation")) ∧
    (attributeReadsAs h (utf8 "role") = utf8 "Bank_Home_Loan_Admin" →
      Invoke h w (utf8 "CreateLoanApplication") args =
        (w, .error (utf8 "Expected atleast two arguments for loan application creation"))) := by
  have hc : CreateLoanApplication h w args =
      (w, .error (utf8 "Expected atleast two arguments for loan application creation")) := by
    simp [CreateLoanApplication, hlen]
  exact ⟨hc, fun hr => by rw [Invoke_admin h w _ hr, hc]⟩

theorem create_too_few_args_witness :
    [utf8 "L1"].length < 2 ∧
    CreateLoanApplication muteHost emptyWorld [utf8 "L1"] =
      (emptyWorld, .error (utf8 "Expected atleast two arguments for loan application creation")) :=
  ⟨by decide, (create_too_few_args muteHost emptyWorld [utf8 "L1"] (by decide)).1⟩

/-- C5: `GetLoanApplication` never changes the world; it fails exactly when the
argument list is empty (with the missing-id error) or the host fetch of `args[0]`
fails (with the host's error); otherwise it returns, without error, the very
value the ledger holds for `args[0]`, which for an absent key is nil. -/
theorem read_contract (h : Host) (w : World) (args : List Bytes) :
    (GetLoanApplication h w args).1 = w ∧
    ((∃ e, (GetLoanApplication h w args).2 = .error e) ↔
      (args = [] ∨ ∃ e, h.getFault w (args.getD 0 []) = some e)) ∧
    (args = [] →
      (GetLoanApplication h w args).2 = .error (utf8 "Missing loan application ID")) ∧
    (∀ id rest e, args = id :: rest → h.getFault w id = some e →
      (GetLoanApplication h w args).2 = .error e) ∧
    (∀ id rest, args = id :: rest → h.getFault w id = none →
      (GetLoanApplication h w args).2 = .ok (w.ledger id)) := by
  cases args with
  | nil => simp [GetLoanApplication]
  | cons id rest =>
    cases hg : h.getFault w id with
    | none =>
      simp only [GetLoanApplication, GetState, hg, List.getD_cons_zero]
      refine ⟨rfl, by simp, by simp, ?_, ?_⟩
      · intro id2 rest2 e heq hf
        simp only [List.cons.injEq] at heq
        rw [← heq.1, hg] at hf
        cases hf
      · intro id2 rest2 heq _
        simp only [List.cons.injEq] at heq
        rw [← heq.1]
        simp
    | some e =>
      simp only [GetLoanApplication, GetState, hg, List.getD_cons_zero]
      refine ⟨rfl, by simp, by simp, ?_, ?_⟩
      · intro id2 rest2 e2 heq hf
        simp only [List.cons.injEq] at heq
        rw [← heq.1, hg] at hf
        cases hf
        simp
      · intro id2 rest2 heq hf
        simp only [List.cons.injEq] at heq
        rw [← heq.1, hg] at hf
        cases hf

/-- C9: when the host accepts the put but refuses the event,
`CreateLoanApplication([id, payload, ...])` returns the event error, and the world
it leaves behind still holds `payload` at `id` (other keys and the event list as
before): the write is not rolled back. -/
theorem create_not_atomic (h : Host) (w : World) (id payload : Bytes) (rest : List Bytes)
    (err : GoError) (hput : h.putFault w id payload = none)
    (hevt : h.eventFault (w.put id payload) (utf8 "evtSender") (creationEvent id) = some err) :
    (CreateLoanApplication h w (id :: payload :: rest)).2 = .error err ∧
    (CreateLoanApplication h w (id :: payload :: rest)).1.ledger id = some payload ∧
    (∀ k, k ≠ id →
      (CreateLoanApplication h w (id :: payload :: rest)).1.ledger k = w.ledger k) ∧
    (CreateLoanApplication h w (id :: payload :: rest)).1.events = w.events := by
  rw [CreateLoanApplication_eq, hput]
  simp only [hevt]
  refine ⟨?_, ?_, ?_, ?_⟩
  · trivial
  · simp [World.put]
  · intro k hk
    simp [World.put, hk]
  · rfl

theorem create_not_atomic_witness :
    muteHost.putFault emptyWorld (utf8 "L1") (utf8 "\x7b\x7d") = none ∧
    (CreateLoanApplication muteHost emptyWorld [utf8 "L1", utf8 "\x7b\x7d"]).2
      = .error (utf8 "event refused") ∧
    (CreateLoanApplication muteHost emptyWorld [utf8 "L1", utf8 "\x7b\x7d"]).1.ledger (utf8 "L1")
      = some (utf8 "\x7b\x7d") :=
  ⟨rfl,
    (create_not_atomic muteHost emptyWorld (utf8 "L1") (utf8 "\x7b\x7d") []
      (utf8 "event refused") rfl rfl).1,
    (create_not_atomic muteHost emptyWorld (utf8 "L1") (utf8 "\x7b\x7d") []
      (utf8 "event refused") rfl rfl).2.1⟩

/-! ## Update -/

theorem UpdateLoanApplication_eq (h : Host) (w : World) (id status : Bytes)
    (rest : List Bytes) :
    UpdateLoanApplication h w (id :: status :: rest) =
      match h.getFault w id with
      | some err => (w, .error err)
      | none =>
        match h.putFault w id (updatedBytes (w.ledger id) status) with
        | some err => (w, .error err)
        | none =>
          match h.eventFault (w.put id (updatedBytes (w.ledger id) status)) (utf8 "evtSender")
              (updateEvent id) with
          | some err => (w.put id (updatedBytes (w.ledger id) status), .error err)
          | none =>
            ((w.put id (updatedBytes (w.ledger id) status)).emit (utf8 "evtSender")
                (updateEvent id),
              .ok none) := by
  have hlen : ¬ ((id :: status :: rest).length < 2) := by simp
  simp only [UpdateLoanApplication, hlen, if_false, GetState, PutState, SetEvent, jsonMarshal,
    updateEvent, updatedBytes, List.getD_cons_zero, List.getD_cons_succ]
  cases h.getFault w id with
  | some err => rfl
  | none =>
    simp only []
    cases h.putFault w id ((encodeLoanApplication
      { (jsonUnmarshal (sliceBytes (w.ledger id)) LoanApplication.zero).1
        with Status := status })) with
    | some err => rfl
    | none =>
      simp only []
      cases h.eventFault (w.put id ((encodeLoanApplication
        { (jsonUnmarshal (sliceBytes (w.ledger id)) LoanApplication.zero).1
          with Status := status }))) (utf8 "evtSender")
        ((utf8 "\x7beventType: 'loanApplicationUpdate', description:") ++ id
          ++ utf8 "' Successfully updated status'\x7d") <;> rfl

/-- What a successful update leaves behind. -/
theorem update_success (h : Host) (w : World) (id status : Bytes) (rest : List Bytes)
    (out : Option Bytes) (hok : (UpdateLoanApplication h w (id :: status :: rest)).2 = .ok out) :
    (UpdateLoanApplication h w (id :: status :: rest)).1 =
      (w.put id (updatedBytes (w.ledger id) status)).emit (utf8 "evtSender") (updateEvent id) := by
  rw [UpdateLoanApplication_eq] at hok ⊢
  cases hg : h.getFault w id with
  | some err => simp [hg] at hok
  | none =>
    simp only [hg] at hok ⊢
    cases hp : h.putFault w id (updatedBytes (w.ledger id) status) with
    | some err => simp [hp] at hok
    | none =>
      simp only [hp] at hok ⊢
      cases he : h.eventFault (w.put id (updatedBytes (w.ledger id) status)) (utf8 "evtSender")
          (updateEvent id) with
      | some err => simp [he] at hok
      | none => rfl

theorem updatedBytes_some (b : Bytes) (r : LoanApplication) (err : Option JsonError)
    (status : Bytes) (hdec : jsonUnmarshal b LoanApplication.zero = (r, err)) :
    updatedBytes (some b) status = encodeLoanApplication { r with Status := status } := by
  simp [updatedBytes, sliceBytes, hdec]

/-- What an update wrote decodes, without error, to the record it encoded with the
new status coerced to valid UTF-8; the other strings came out of the decoder and
are valid already. -/
theorem jsonUnmarshal_updatedBytes (stored : Option Bytes) (status : Bytes) :
    jsonUnmarshal (updatedBytes stored status) LoanApplication.zero
      = ({ (jsonUnmarshal (sliceBytes stored) LoanApplication.zero).1
            with Status := coerceUTF8 status }, none) := by
  have hv := jsonUnmarshal_valid (sliceBytes stored) LoanApplication.zero zero_valid
  simp only [updatedBytes, jsonUnmarshal_encode, coerceUTF8_withStatus,
    loanApplication_coerceUTF8_of_valid _ hv]

/-- Updating what an update wrote, with the same status, writes the same bytes. -/
theorem updatedBytes_idem (stored : Option Bytes) (status : Bytes) :
    updatedBytes (some (updatedBytes stored status)) status = updatedBytes stored status := by
  rw [updatedBytes_some _ _ _ status (jsonUnmarshal_updatedBytes stored status)]
  rfl

theorem put_same_ledger (w : World) (key : Bytes) (value : Bytes)
    (hk : w.ledger key = some value) : (w.put key value).ledger = w.ledger := by
  funext k
  by_cases hkk : k = key
  · simp [World.put, hkk, hk]
  · simp [World.put, hkk]

theorem creationEvent_ne_updateEvent (a b : Bytes) : creationEvent a ≠ updateEvent b := by
  intro heq
  have h := congrArg (fun s : Bytes => s.take 29) heq
  simp only [creationEvent, updateEvent, List.append_assoc] at h
  have l1 : 29 ≤ (utf8 "\x7beventType: 'loanApplicationCreation', description:").length := by
    decide
  have l2 : 29 ≤ (utf8 "\x7beventType: 'loanApplicationUpdate', description:").length := by
    decide
  rw [List.take_append_of_le_length l1, List.take_append_of_le_length l2] at h
  revert h
  decide

theorem CreateLoanApplication_events (h : Host) (w : World) (args : List Bytes) :
    (CreateLoanApplication h w args).1.events = w.events ∨
    ∃ id, (CreateLoanApplication h w args).1.events
      = w.events ++ [(utf8 "evtSender", creationEvent id)] := by
  by_cases hlen : args.length < 2
  · left; simp [CreateLoanApplication, hlen]
  · obtain ⟨id, payload, rest, rfl⟩ : ∃ id payload rest, args = id :: payload :: rest := by
      match args, hlen with
      | id :: payload :: rest, _ => exact ⟨id, payload, rest, rfl⟩
      | [_], hl => simp at hl
      | [], hl => simp at hl
    rw [CreateLoanApplication_eq]
    cases h.putFault w id payload with
    | some err => left; rfl
    | none =>
      simp only []
      cases h.eventFault (w.put id payload) (utf8 "evtSender") (creationEvent id) with
      | some err => left; rfl
      | none => right; exact ⟨id, rfl⟩

theorem dispatch_world (h : Host) (w : World) (c : Call) :
    (dispatch h w c).1 = w ∨
    ∃ args, c = .invoke (utf8 "CreateLoanApplication") args ∧
      (dispatch h w c).1 = (CreateLoanApplication h w args).1 := by
  cases c with
  | init f args => left; rfl
  | query f args =>
    left
    simp only [dispatch, Query]
    split
    · exact (read_world h w args)
    · rfl
  | invoke f args =>
    simp only [dispatch, Invoke]
    split
    · next hf =>
      subst hf
      split
      · right; exact ⟨args, rfl, rfl⟩
      · left; rfl
    · left; rfl

theorem runCalls_no_update_event (calls : List (Host × Call)) :
    ∀ (w : World) (id : Bytes),
      (utf8 "evtSender", updateEvent id) ∈ (runCalls w calls).events →
      (utf8 "evtSender", updateEvent id) ∈ w.events := by
  induction calls with
  | nil => intro w id hmem; exact hmem
  | cons hc rest ih =>
    intro w id hmem
    obtain ⟨h, c⟩ := hc
    have hstep := ih (dispatch h w c).1 id hmem
    rcases dispatch_world h w c with hw | ⟨args, _, hw⟩
    · rw [hw] at hstep; exact hstep
    · rw [hw] at hstep
      rcases CreateLoanApplication_events h w args with he | ⟨i, he⟩
      · rw [he] at hstep; exact hstep
      · rw [he] at hstep
        simp only [List.mem_append, List.mem_singleton, Prod.mk.injEq, true_and] at hstep
        rcases hstep with hstep | hstep
        · exact hstep
        · exact absurd hstep.symm (creationEvent_ne_updateEvent i id)

/-- What a successful update leaves at `id` when the key held the encoding of a
record `r`, whatever bytes `r` and the new status are made of: bytes that decode,
without error, to `r` with `Status` replaced, every string coerced to valid
UTF-8. -/
theorem update_status_coerced (h : Host) (w : World) (id S1 : Bytes) (rest : List Bytes)
    (r : LoanApplication) (b : Bytes) (out : Option Bytes)
    (hstored : w.ledger id = some b)
    (henc : jsonMarshal r = .ok b ∨ jsonUnmarshal b LoanApplication.zero = (r, none))
    (hok : (UpdateLoanApplication h w (id :: S1 :: rest)).2 = .ok out) :
    ∃ b', (UpdateLoanApplication h w (id :: S1 :: rest)).1.ledger id = some b' ∧
      jsonUnmarshal b' LoanApplication.zero
        = ({ r.coerceUTF8 with Status := coerceUTF8 S1 }, none) := by
  have hdec : jsonUnmarshal b LoanApplication.zero = (r.coerceUTF8, none) := by
    rcases henc with hm | hd
    · simp only [jsonMarshal, Except.ok.injEq] at hm
      rw [← hm]
      exact jsonUnmarshal_encode r LoanApplication.zero
    · have hv := jsonUnmarshal_valid b LoanApplication.zero zero_valid
      rw [hd] at hv
      rw [loanApplication_coerceUTF8_of_valid r hv]
      exact hd
  rw [update_success h w id S1 rest out hok, hstored]
  refine ⟨updatedBytes (some b) S1, ?_, ?_⟩
  · simp [World.emit, World.put]
  · rw [jsonUnmarshal_updatedBytes]
    simp only [sliceBytes, Option.getD_some, hdec]

theorem update_status_coerced_witness :
    (UpdateLoanApplication tellerHost sampleWorld
      [utf8 "L1", badStatus]).2 = .ok none ∧
    ∃ b', (UpdateLoanApplication tellerHost sampleWorld
        [utf8 "L1", badStatus]).1.ledger (utf8 "L1") = some b' ∧
      jsonUnmarshal b' LoanApplication.zero
        = ({ sampleLoan.coerceUTF8 with Status := coerceUTF8 badStatus }, none) := by
  set_option maxRecDepth 1000000 in
  exact ⟨rfl, update_status_coerced tellerHost sampleWorld
    (utf8 "L1") badStatus [] sampleLoan (encodeLoanApplication sampleLoan) none rfl
    (Or.inl rfl) rfl⟩

/-- The client's text decodes, without error, to `sampleLoan`. -/
theorem clientPayload_decodes :
    jsonUnmarshal clientPayload LoanApplication.zero = (sampleLoan, none) := by
  set_option maxRecDepth 1000000 in decide

/-- C6 (as stated, refuted): key "L1" holds what `json.Marshal` writes for
`sampleLoan`, and those bytes decode to `sampleLoan`; the update with the status
bytes 41 FF 42, which are not valid UTF-8, succeeds, but `json.Marshal` writes the
byte FF as the escape of U+FFFD, so the `Status` of the record the stored bytes
decode to is "A", U+FFFD, "B" and not the status that was given. -/
theorem update_changes_only_status_counterexample :
    sampleWorld.ledger (utf8 "L1") = some (encodeLoanApplication sampleLoan) ∧
    jsonMarshal sampleLoan = .ok (encodeLoanApplication sampleLoan) ∧
    jsonUnmarshal (encodeLoanApplication sampleLoan) LoanApplication.zero = (sampleLoan, none) ∧
    (UpdateLoanApplication tellerHost sampleWorld
      [utf8 "L1", badStatus]).2 = .ok none ∧
    ∃ b', (UpdateLoanApplication tellerHost sampleWorld
        [utf8 "L1", badStatus]).1.ledger (utf8 "L1") = some b' ∧
      (jsonUnmarshal b' LoanApplication.zero).1.Status = [65, 239, 191, 189, 66] ∧
      (jsonUnmarshal b' LoanApplication.zero).1.Status ≠ badStatus ∧
      jsonUnmarshal b' LoanApplication.zero
        ≠ ({ sampleLoan with Status := badStatus }, none) := by
  have hdec : jsonUnmarshal (encodeLoanApplication sampleLoan) LoanApplication.zero
      = (sampleLoan, none) := by
    rw [jsonUnmarshal_encode, loanApplication_coerceUTF8_of_valid sampleLoan (by decide)]
  have hb : jsonUnmarshal (updatedBytes (some (encodeLoanApplication sampleLoan)) badStatus)
      LoanApplication.zero = ({ sampleLoan with Status := [65, 239, 191, 189, 66] }, none) := by
    rw [jsonUnmarshal_updatedBytes]
    simp only [sliceBytes, Option.getD_some, hdec]
    rfl
  have hok : (UpdateLoanApplication tellerHost sampleWorld
      [utf8 "L1", badStatus]).2 = .ok none := by
    set_option maxRecDepth 1000000 in rfl
  have hl : (UpdateLoanApplication tellerHost sampleWorld
      [utf8 "L1", badStatus]).1.ledger (utf8 "L1")
        = some (updatedBytes (some (encodeLoanApplication sampleLoan)) badStatus) := by
    set_option maxRecDepth 1000000 in rfl
  have hw : sampleWorld.ledger (utf8 "L1") = some (encodeLoanApplication sampleLoan) := by
    set_option maxRecDepth 1000000 in rfl
  refine ⟨hw, rfl, hdec, hok, updatedBytes (some (encodeLoanApplication sampleLoan)) badStatus,
    hl, ?_, ?_, ?_⟩
  · rw [hb]
  · rw [hb]; decide
  · rw [hb]
    intro heq
    have hs := congrArg (fun p : LoanApplication × Option JsonError => p.1.Status) heq
    revert hs
    decide

/-- C6 (amended): when key `id` holds the JSON encoding of a record `r` whose
string fields are valid UTF-8 (what `json.Marshal` writes for `r`, or any text
`json.Unmarshal` decodes to `r` without error), and the new status `S1` is valid
UTF-8, a successful `UpdateLoanApplication([id, S1, ...])` leaves at `id` bytes
that decode, without error, to `r` with `Status` replaced by `S1` and every other
field as in `r`, and leaves every other key of the ledger as it was. -/
theorem update_changes_only_status (h : Host) (w : World) (id S1 : Bytes)
    (rest : List Bytes) (r : LoanApplication) (b : Bytes) (out : Option Bytes)
    (hstored : w.ledger id = some b)
    (henc : jsonMarshal r = .ok b ∨ jsonUnmarshal b LoanApplication.zero = (r, none))
    (hr : r.ValidUTF8) (hS : ValidUTF8 S1)
    (hok : (UpdateLoanApplication h w (id :: S1 :: rest)).2 = .ok out) :
    (∃ b', (UpdateLoanApplication h w (id :: S1 :: rest)).1.ledger id = some b' ∧
      jsonUnmarshal b' LoanApplication.zero = ({ r with Status := S1 }, none)) ∧
    ∀ k, k ≠ id → (UpdateLoanApplication h w (id :: S1 :: rest)).1.ledger k = w.ledger k := by
  have hdec : jsonUnmarshal b LoanApplication.zero = (r, none) := by
    rcases henc with hm | hd
    · simp only [jsonMarshal, Except.ok.injEq] at hm
      rw [← hm, jsonUnmarshal_encode r LoanApplication.zero,
        loanApplication_coerceUTF8_of_valid r hr]
    · exact hd
  have hS1 : coerceUTF8 S1 = S1 := hS
  rw [update_success h w id S1 rest out hok, hstored]
  refine ⟨⟨updatedBytes (some b) S1, ?_, ?_⟩, ?_⟩
  · simp [World.emit, World.put]
  · rw [jsonUnmarshal_updatedBytes]
    simp only [sliceBytes, Option.getD_some, hdec, hS1]
  · intro k hk
    simp [World.emit, World.put, hk]

theorem update_changes_only_status_witness :
    (Invoke adminHost emptyWorld
      (utf8 "CreateLoanApplication") [utf8 "L1", clientPayload]).1.ledger (utf8 "L1")
        = some clientPayload ∧
    jsonUnmarshal clientPayload LoanApplication.zero = (sampleLoan, none) ∧
    sampleLoan.ValidUTF8 ∧ ValidUTF8 (utf8 "APPROVED") ∧
    sampleLoan.RequestedAmount.val = 250000 ∧
    ∃ b', (UpdateLoanApplication tellerHost
        (Invoke adminHost emptyWorld
          (utf8 "CreateLoanApplication") [utf8 "L1", clientPayload]).1
        [utf8 "L1", utf8 "APPROVED"]).1.ledger (utf8 "L1") = some b' ∧
      jsonUnmarshal b' LoanApplication.zero
        = ({ sampleLoan with Status := utf8 "APPROVED" }, none) :=
  have hcreate : (Invoke adminHost emptyWorld
      (utf8 "CreateLoanApplication") [utf8 "L1", clientPayload]).1.ledger (utf8 "L1")
        = some clientPayload := by
    have hr : attributeReadsAs adminHost
        (utf8 "role") = utf8 "Bank_Home_Loan_Admin" := by decide
    rw [Invoke_admin _ _ _ hr, CreateLoanApplication_eq]
    rfl
  have hok : (UpdateLoanApplication tellerHost
      (Invoke adminHost emptyWorld
        (utf8 "CreateLoanApplication") [utf8 "L1", clientPayload]).1
      [utf8 "L1", utf8 "APPROVED"]).2 = .ok none := by
    rw [UpdateLoanApplication_eq]; rfl
  ⟨hcreate, clientPayload_decodes, by decide, by decide, rfl,
    (update_changes_only_status tellerHost _ (utf8 "L1")
      (utf8 "APPROVED") [] sampleLoan clientPayload none hcreate (Or.inr clientPayload_decodes)
      (by decide) (by decide) hok).1⟩

/-- C7: if `UpdateLoanApplication([id, S, ...])` succeeds and is applied again
with the same arguments to the world it left, under any host behaviour, the
ledger after the second call is the ledger after the first: the same bytes at
`id`, and no other key touched. -/
theorem update_idempotent (h1 h2 : Host) (w : World) (id S : Bytes) (rest : List Bytes)
    (out : Option Bytes)
    (hok : (UpdateLoanApplication h1 w (id :: S :: rest)).2 = .ok out) :
    (UpdateLoanApplication h2 (UpdateLoanApplication h1 w (id :: S :: rest)).1
        (id :: S :: rest)).1.ledger
      = (UpdateLoanApplication h1 w (id :: S :: rest)).1.ledger := by
  rw [update_success h1 w id S rest out hok]
  generalize hw1 :
    (w.put id (updatedBytes (w.ledger id) S)).emit (utf8 "evtSender") (updateEvent id)
    = w1
  have hl : w1.ledger id = some (updatedBytes (w.ledger id) S) := by
    rw [← hw1]; simp [World.emit, World.put]
  have hb : updatedBytes (w1.ledger id) S = updatedBytes (w.ledger id) S := by
    rw [hl, updatedBytes_idem]
  rw [UpdateLoanApplication_eq, hb]
  cases h2.getFault w1 id with
  | some err => rfl
  | none =>
    simp only []
    cases h2.putFault w1 id (updatedBytes (w.ledger id) S) with
    | some err => rfl
    | none =>
      simp only []
      cases h2.eventFault (w1.put id (updatedBytes (w.ledger id) S)) (utf8 "evtSender")
          (updateEvent id) with
      | some err => exact put_same_ledger w1 id _ hl
      | none => exact put_same_ledger w1 id _ hl

theorem update_idempotent_witness :
    (UpdateLoanApplication tellerHost sampleWorld [utf8 "L1", utf8 "APPROVED"]).2
      = .ok none ∧
    (UpdateLoanApplication tellerHost
        (UpdateLoanApplication tellerHost sampleWorld
          [utf8 "L1", utf8 "APPROVED"]).1 [utf8 "L1", utf8 "APPROVED"]).1.ledger
      = (UpdateLoanApplication tellerHost sampleWorld
          [utf8 "L1", utf8 "APPROVED"]).1.ledger :=
  have hok : (UpdateLoanApplication tellerHost sampleWorld
      [utf8 "L1", utf8 "APPROVED"]).2 = .ok none := by
    rw [UpdateLoanApplication_eq]; rfl
  ⟨hok, update_idempotent tellerHost tellerHost
    sampleWorld (utf8 "L1") (utf8 "APPROVED") [] none hok⟩

/-- C8: a function name the dispatcher does not know is a silent no-op: `Query`
with any name but "GetLoanApplication" and `Invoke` with any name but
"CreateLoanApplication", in particular `Invoke("UpdateLoanApplication", ...)`,
return no data and no error and hand back the world untouched.  So every
entry-point call leaves the world as it was or as `CreateLoanApplication` leaves
it, and no sequence of entry-point calls ever emits the event of the update
transition. -/
theorem unknown_operations_are_noops (h : Host) (w : World) (qfn ifn : Bytes)
    (args uargs : List Bytes) (hq : qfn ≠ utf8 "GetLoanApplication")
    (hi : ifn ≠ utf8 "CreateLoanApplication") :
    Query h w qfn args = (w, .ok none) ∧
    Invoke h w ifn args = (w, .ok none) ∧
    Invoke h w (utf8 "UpdateLoanApplication") uargs = (w, .ok none) ∧
    (∀ c, (dispatch h w c).1 = w ∨
      ∃ a, c = .invoke (utf8 "CreateLoanApplication") a ∧
        (dispatch h w c).1 = (CreateLoanApplication h w a).1) ∧
    ∀ (calls : List (Host × Call)) (id : Bytes),
      (utf8 "evtSender", updateEvent id) ∈ (runCalls w calls).events →
        (utf8 "evtSender", updateEvent id) ∈ w.events := by
  refine ⟨by simp [Query, hq], by simp [Invoke, hi], ?_, dispatch_world h w,
    fun calls id => runCalls_no_update_event calls w id⟩
  have hne : (utf8 "UpdateLoanApplication") ≠ utf8 "CreateLoanApplication" := by decide
  simp [Invoke, hne]

theorem unknown_operations_are_noops_witness :
    (utf8 "DeleteLoanApplication") ≠ utf8 "GetLoanApplication" ∧
    (utf8 "UpdateLoanApplication") ≠ utf8 "CreateLoanApplication" ∧
    Invoke adminHost sampleWorld (utf8 "UpdateLoanApplication")
      [utf8 "L1", utf8 "APPROVED"] = (sampleWorld, .ok none) :=
  ⟨by decide, by decide,
    (unknown_operations_are_noops adminHost sampleWorld
      (utf8 "DeleteLoanApplication") (utf8 "UpdateLoanApplication") [utf8 "L1"]
      [utf8 "L1", utf8 "APPROVED"]
      (by decide) (by decide)).2.1⟩

/-- C10: `UpdateLoanApplication` does not look at what the decode returned.  Let
`stored` be the bytes the fetch hands over (the value at `id`, or no bytes for an
absent key), `left` the record and `err` the error `json.Unmarshal` returns for
them on the zero record, and `b` the encoding of `left` with `Status` set to `S`.
With the host's fetch, put and event calls succeeding, the update returns success
and leaves `b` at `id`, whatever `err` is.  For an absent key the decode fails
with a syntax error, `left` is the zero record, and `b` is the encoding of the
zero record with `Status = S`: the update creates a record. -/
theorem update_ignores_decode_error (h : Host) (w : World) (id S : Bytes)
    (rest : List Bytes) (stored b : Bytes) (left : LoanApplication) (err : Option JsonError)
    (hstored : w.ledger id = some stored ∨ (w.ledger id = none ∧ stored = []))
    (hdec : jsonUnmarshal stored LoanApplication.zero = (left, err))
    (henc : jsonMarshal { left with Status := S } = .ok b)
    (hget : h.getFault w id = none)
    (hput : h.putFault w id b = none)
    (hevt : h.eventFault (w.put id b) (utf8 "evtSender") (updateEvent id) = none) :
    (UpdateLoanApplication h w (id :: S :: rest)).2 = .ok none ∧
    (UpdateLoanApplication h w (id :: S :: rest)).1.ledger id = some b ∧
    (w.ledger id = none →
      err = some JsonError.malformed ∧ left = LoanApplication.zero ∧
      jsonMarshal { LoanApplication.zero with Status := S } = .ok b) := by
  have hslice : sliceBytes (w.ledger id) = stored := by
    rcases hstored with hs | ⟨hn, he⟩
    · rw [hs]; rfl
    · rw [hn, he]; rfl
  have hb : updatedBytes (w.ledger id) S = b := by
    simp only [jsonMarshal, Except.ok.injEq] at henc
    simp only [updatedBytes, hslice, hdec, henc]
  rw [UpdateLoanApplication_eq, hget, hb]
  simp only [hput, hevt]
  refine ⟨trivial, by simp [World.emit, World.put], ?_⟩
  intro habs
  have hempty : stored = [] := by
    rcases hstored with hs | ⟨_, he⟩
    · rw [habs] at hs; cases hs
    · exact he
  have hz : jsonUnmarshal [] LoanApplication.zero
      = (LoanApplication.zero, some JsonError.malformed) := by decide
  rw [hempty, hz, Prod.mk.injEq] at hdec
  refine ⟨hdec.2.symm, hdec.1.symm, ?_⟩
  rw [hdec.1]
  exact henc

theorem update_ignores_decode_error_witness :
    (partialWorld.ledger (utf8 "L3") = some partialPayload ∧
      jsonUnmarshal partialPayload LoanApplication.zero
        = (partialLoan, some JsonError.typeMismatch) ∧
      partialLoan.BuyerId = utf8 "B7" ∧ partialLoan.FairMarketValue.val = 7 ∧
      (UpdateLoanApplication tellerHost partialWorld
        [utf8 "L3", utf8 "APPROVED"]).2 = .ok none ∧
      (UpdateLoanApplication tellerHost partialWorld
        [utf8 "L3", utf8 "APPROVED"]).1.ledger (utf8 "L3")
          = some (encodeLoanApplication { partialLoan with Status := utf8 "APPROVED" }) ∧
      jsonUnmarshal (encodeLoanApplication { partialLoan with Status := utf8 "APPROVED" })
        LoanApplication.zero = ({ partialLoan with Status := utf8 "APPROVED" }, none)) ∧
    (emptyWorld.ledger (utf8 "L9") = none ∧
      (UpdateLoanApplication tellerHost emptyWorld
        [utf8 "L9", utf8 "APPROVED"]).2 = .ok none ∧
      (UpdateLoanApplication tellerHost emptyWorld
        [utf8 "L9", utf8 "APPROVED"]).1.ledger (utf8 "L9")
          = some (encodeLoanApplication
              { LoanApplication.zero with Status := utf8 "APPROVED" })) :=
  have hdec : jsonUnmarshal partialPayload LoanApplication.zero
      = (partialLoan, some JsonError.typeMismatch) := by
    set_option maxRecDepth 1000000 in decide
  have hz : jsonUnmarshal [] LoanApplication.zero
      = (LoanApplication.zero, some JsonError.malformed) := by decide
  ⟨⟨rfl, hdec, rfl, rfl,
    (update_ignores_decode_error tellerHost partialWorld
      (utf8 "L3") (utf8 "APPROVED") [] partialPayload _ partialLoan _ (Or.inl rfl) hdec rfl
      rfl rfl rfl).1,
    (update_ignores_decode_error tellerHost partialWorld
      (utf8 "L3") (utf8 "APPROVED") [] partialPayload _ partialLoan _ (Or.inl rfl) hdec rfl
      rfl rfl rfl).2.1,
    by rw [jsonUnmarshal_encode]; rfl⟩,
   ⟨rfl,
    (update_ignores_decode_error tellerHost emptyWorld
      (utf8 "L9") (utf8 "APPROVED") [] [] _ LoanApplication.zero _ (Or.inr ⟨rfl, rfl⟩) hz rfl
      rfl rfl rfl).1,
    (update_ignores_decode_error tellerHost emptyWorld
      (utf8 "L9") (utf8 "APPROVED") [] [] _ LoanApplication.zero _ (Or.inr ⟨rfl, rfl⟩) hz rfl
      rfl rfl rfl).2.1⟩⟩

/-! ## Further facts about Update -/

/-- With fewer than two arguments `UpdateLoanApplication` fails with its
invalid-arguments error and hands back the world it was given. -/
theorem update_too_few_args (h : Host) (w : World) (args : List Bytes)
    (hlen : args.length < 2) :
    UpdateLoanApplication h w args =
      (w, .error (utf8 "Expected atleast two arguments for loan application update")) := by
  simp [UpdateLoanApplication, hlen]

theorem update_too_few_args_witness :
    [utf8 "L1"].length < 2 ∧
    UpdateLoanApplication unreadableHost sampleWorld [utf8 "L1"] =
      (sampleWorld, .error (utf8 "Expected atleast two arguments for loan application update")) :=
  ⟨by decide, update_too_few_args unreadableHost sampleWorld [utf8 "L1"] (by decide)⟩

/-- The host failures of `UpdateLoanApplication`: a failed fetch or a failed put
is returned and leaves the world untouched; a failed event is returned too, but
the record has been written by then. -/
theorem update_host_failures (h : Host) (w : World) (id S : Bytes) (rest : List Bytes) :
    (∀ e, h.getFault w id = some e →
      UpdateLoanApplication h w (id :: S :: rest) = (w, .error e)) ∧
    (∀ e, h.getFault w id = none → h.putFault w id (updatedBytes (w.ledger id) S) = some e →
      UpdateLoanApplication h w (id :: S :: rest) = (w, .error e)) ∧
    (∀ e, h.getFault w id = none → h.putFault w id (updatedBytes (w.ledger id) S) = none →
      h.eventFault (w.put id (updatedBytes (w.ledger id) S)) (utf8 "evtSender") (updateEvent id)
        = some e →
      UpdateLoanApplication h w (id :: S :: rest)
        = (w.put id (updatedBytes (w.ledger id) S), .error e)) := by
  refine ⟨?_, ?_, ?_⟩
  · intro e hg
    rw [UpdateLoanApplication_eq, hg]
  · intro e hg hp
    rw [UpdateLoanApplication_eq, hg]
    simp only [hp]
  · intro e hg hp he
    rw [UpdateLoanApplication_eq, hg]
    simp only [hp, he]

/-- `Init` does nothing. -/
theorem init_noop (h : Host) (w : World) (function : Bytes) (args : List Bytes) :
    Init h w function args = (w, .ok none) := rfl


end Loan
